import Mathlib

/-!
Verification development for the bootstrap tangler
(`src/scripts/bootstrap-tangle.mjs`).

The JavaScript source is shallowly embedded: every function of the script
that the claims touch is translated into an executable Lean definition.
JavaScript strings are modelled as Lean `String`s manipulated through their
character lists (ASCII inputs, where JS UTF-16 indexing and Lean codepoint
indexing agree); JS objects used as string-keyed dictionaries are modelled
as association lists with first-match lookup and in-place overwrite, which
coincides with JS object semantics since keys stay unique; the JS regexes
are modelled character by character, including their ordered-alternation
and word-boundary behaviour.
-/

/-! ## JavaScript string primitives -/

/-- Boolean prefix test on character lists. -/
def isPrefB : List Char → List Char → Bool
  | [], _ => true
  | _ :: _, [] => false
  | a :: as, b :: bs => a == b && isPrefB as bs

/-- Membership test on a list of strings; models JS `Set.has` /
`Array.includes` for the visited-names set. -/
def memB (nm : String) : List String → Bool
  | [] => false
  | x :: rest => x == nm || memB nm rest

/-- Greedy span: longest prefix of characters satisfying `p`, plus the rest.
Models a greedy character-class run of a JS regex (`\s*`, `[^>]+`, ...). -/
def spanB (p : Char → Bool) : List Char → List Char × List Char
  | [] => ([], [])
  | c :: rest =>
    if p c then
      let r := spanB p rest
      (c :: r.1, r.2)
    else ([], c :: rest)

/-- Model of JS `String.prototype.trim` (both-ends whitespace strip). -/
def trimChars (l : List Char) : List Char :=
  ((l.dropWhile (fun c => c.isWhitespace)).reverse.dropWhile
    (fun c => c.isWhitespace)).reverse

/-- Model of JS `String.prototype.trim` on `String`. -/
def jsTrim (s : String) : String :=
  String.mk (trimChars s.toList)

/-- Model of JS `String.prototype.toLowerCase` (ASCII). -/
def jsLower (s : String) : String :=
  String.mk (s.toList.map Char.toLower)

/-- Model of JS `String.prototype.startsWith`. -/
def jsStarts (s pre : String) : Bool :=
  isPrefB pre.toList s.toList

/-- Model of JS `String.prototype.endsWith`. -/
def jsEnds (s suf : String) : Bool :=
  isPrefB suf.toList.reverse s.toList.reverse

/-- Model of JS `String.prototype.substring(n)` (clamped drop of the first
`n` characters). -/
def jsDropStr (s : String) (n : Nat) : String :=
  String.mk (s.toList.drop n)

/-- Split a character list at every occurrence of the separator character;
always returns at least one (possibly empty) piece, exactly like JS
`String.prototype.split` with a one-character separator. -/
def splitCh (sep : Char) : List Char → List (List Char)
  | [] => [[]]
  | c :: rest =>
    if c == sep then [] :: splitCh sep rest
    else
      match splitCh sep rest with
      | [] => [[c]]
      | l :: ls => (c :: l) :: ls

/-- Model of JS `content.split('\n')`. -/
def splitNl (s : String) : List String :=
  (splitCh '\n' s.toList).map String.mk

/-- Model of JS `Array.prototype.join(sep)`. -/
def jsJoin (sep : String) : List String → String
  | [] => ""
  | [p] => p
  | p :: ps => p ++ sep ++ jsJoin sep ps

/-- Fuel-driven global literal replacement: one step either rewrites the
pattern at the current position and skips past it, or moves one character
forward. The fuel is the input length, which suffices because every step
consumes at least one character (the pattern is non-empty at every call
site); this models a JS global `replace` with a literal pattern. -/
def replaceRun (pat rep : List Char) : Nat → List Char → List Char
  | 0, s => s
  | _ + 1, [] => []
  | fuel + 1, c :: rest =>
    if isPrefB pat (c :: rest) && !pat.isEmpty then
      rep ++ replaceRun pat rep fuel ((c :: rest).drop pat.length)
    else c :: replaceRun pat rep fuel rest

/-- Model of JS `s.replace(/pat/g, rep)` for a literal pattern. -/
def jsReplaceAll (s pat rep : String) : String :=
  if pat.toList.isEmpty then s
  else String.mk (replaceRun pat.toList rep.toList s.toList.length s.toList)

/-- Line-ending normalisation from `extractBlocks` / `extractFileProperties`:
`content.replace(/\r\n/g, '\n').replace(/\r/g, '\n')`. -/
def normalizeNl (s : String) : String :=
  jsReplaceAll (jsReplaceAll s ("\r\n") ("\n")) ("\r") ("\n")

/-- First line of a string: the characters up to (excluding) the first
newline; agrees with JS `s.split('\n')[0]`. -/
def firstLineOf (s : String) : String :=
  String.mk (s.toList.takeWhile (fun c => c != '\n'))

/-! ## Header-argument values and dictionaries -/

/-- Value of a header argument after the two regex passes of
`parseHeaderArgs`: either a string (from the `:key value` pass) or a
boolean (from the `:key yes|no|t|nil` pass). -/
inductive Val where
  | str : String → Val
  | bool : Bool → Val
deriving DecidableEq, Repr

/-- JS truthiness of a `Val` (`''` and `false` are falsy). -/
def Val.truthy : Val → Bool
  | Val.str s => s != ""
  | Val.bool b => b

/-- JS truthiness of a possibly-absent value (`undefined` is falsy). -/
def truthyVal : Option Val → Bool
  | some v => v.truthy
  | none => false

/-- JS `String(v)` on a header-argument value. -/
def jsToString : Option Val → String
  | some (Val.str s) => s
  | some (Val.bool b) => if b then ("true") else ("false")
  | none => "undefined"

/-- Header-argument dictionary: a JS object with string keys, modelled as an
association list in insertion order (keys unique by construction). -/
abbrev Args := List (String × Val)

/-- Property lookup, `obj[k]`; `none` models `undefined`. -/
def getArg : Args → String → Option Val
  | [], _ => none
  | (k', v) :: rest, k => if k' == k then some v else getArg rest k

/-- Property assignment, `obj[k] = v`: overwrites in place or appends,
exactly as JS objects keep the original insertion position of a key. -/
def setArg : Args → String → Val → Args
  | [], k, v => [(k, v)]
  | (k', v') :: rest, k, v =>
    if k' == k then (k, v) :: rest else (k', v') :: setArg rest k v

/-- Object spread `\x7b...a, ...b\x7d`: every binding of `b` is written over
`a` in order. -/
def mergeArgs (a b : Args) : Args :=
  b.foldl (fun acc p => setArg acc p.1 p.2) a

/-- Document-level properties: language tag (or `*`) to argument
dictionary, as built by `extractFileProperties`. -/
abbrev FileProps := List (String × Args)

/-- Lookup of `fileProperties[lang]` with `\x7b\x7d` as the default
(models `fileProperties[language] || \x7b\x7d`). -/
def getPropsD : FileProps → String → Args
  | [], _ => []
  | (k', v) :: rest, k => if k' == k then v else getPropsD rest k

/-- Assignment `props[lang] = v`. -/
def setProp : FileProps → String → Args → FileProps
  | [], k, v => [(k, v)]
  | (k', v') :: rest, k, v =>
    if k' == k then (k, v) :: rest else (k', v') :: setProp rest k v

/-! ## Character classes of the modelled regexes -/

/-- Character class `[\w-]` (key characters of `:key`). -/
def keyChar (c : Char) : Bool :=
  c.isAlphanum || c == '_' || c == '-'

/-- Character class `\w` (used by the `\b` word boundary; a hyphen is NOT a
word character). -/
def wordChar (c : Char) : Bool :=
  c.isAlphanum || c == '_'

/-- Character class `\s` (ASCII approximation). -/
def wsChar (c : Char) : Bool :=
  c.isWhitespace

/-- Case-insensitive literal match of `pat` at the head of `cs`; returns the
rest on success. Models a case-insensitive literal regex fragment. -/
def ciPref : List Char → List Char → Option (List Char)
  | [], cs => some cs
  | _ :: _, [] => none
  | p :: ps, c :: cs => if p.toLower == c.toLower then ciPref ps cs else none

/-! ## Header parser (`parseHeaderArgs`, lines 58-87) -/

/-- Attempt of the value regex `:([\w-]+)\s+([^\s:]+|"[^"]*")` at the
current position. The first alternative of the value group is tried first
(as the JS engine does); the quoted alternative is kept for fidelity even
though it can only be reached when the first character after the spaces is
`:`, where it fails too. Returns `(key, raw value, rest after match)`. -/
def matchArgAt (cs : List Char) : Option (List Char × List Char × List Char) :=
  match cs with
  | ':' :: rest =>
    let kr := spanB keyChar rest
    if kr.1.isEmpty then none
    else
      let sr := spanB wsChar kr.2
      if sr.1.isEmpty then none
      else
        let vr := spanB (fun c => !(wsChar c) && c != ':') sr.2
        if vr.1.isEmpty then
          match sr.2 with
          | '"' :: q =>
            let qr := spanB (fun c => c != '"') q
            match qr.2 with
            | '"' :: r5 => some (kr.1, '"' :: (qr.1 ++ ['"']), r5)
            | _ => none
          | _ => none
        else some (kr.1, vr.1, vr.2)
  | _ => none

/-- Quote stripping of `parseHeaderArgs`: JS
`value.startsWith('"') && value.endsWith('"')` then `slice(1, -1)`. -/
def stripQuotes (v : List Char) : List Char :=
  if isPrefB (['"']) v &&
      (match v.getLast? with | some c => c == '"' | none => false) then
    (v.drop 1).dropLast
  else v

/-- Global scan of the value regex over the argument string, threading the
argument object. One unit of fuel is spent per position, and a successful
match always consumes at least two characters, so fuel = length + 1 makes
the scan run to the end of the string exactly like the JS `exec` loop. -/
def scanArgsA : Nat → List Char → Args → Args
  | 0, _, args => args
  | _ + 1, [], args => args
  | fuel + 1, c :: rest, args =>
    match matchArgAt (c :: rest) with
    | some (k, v, rest') =>
      scanArgsA fuel rest' (setArg args (String.mk k) (Val.str (String.mk (stripQuotes v))))
    | none => scanArgsA fuel rest args

/-- Word boundary `\b` after a word character: holds at end of input or
before a non-word character. -/
def boundaryOk : List Char → Bool
  | [] => true
  | c :: _ => !(wordChar c)

/-- One alternative of `(yes|no|t|nil)` with the trailing `\b`: matches `w`
case-insensitively and checks the boundary; returns the matched source
characters and the rest. -/
def tryFlag (w : String) (cs : List Char) : Option (List Char × List Char) :=
  match ciPref w.toList cs with
  | some rest => if boundaryOk rest then some (cs.take w.toList.length, rest) else none
  | none => none

/-- Ordered alternation `(yes|no|t|nil)\b` as the JS engine tries it. -/
def matchFlagValue (cs : List Char) : Option (List Char × List Char) :=
  match tryFlag ("yes") cs with
  | some r => some r
  | none =>
    match tryFlag ("no") cs with
    | some r => some r
    | none =>
      match tryFlag ("t") cs with
      | some r => some r
      | none => tryFlag ("nil") cs

/-- Attempt of the flag regex `:([\w-]+)\s+(yes|no|t|nil)\b` (with the `i`
flag) at the current position. -/
def matchFlagAt (cs : List Char) : Option (List Char × List Char × List Char) :=
  match cs with
  | ':' :: rest =>
    let kr := spanB keyChar rest
    if kr.1.isEmpty then none
    else
      let sr := spanB wsChar kr.2
      if sr.1.isEmpty then none
      else
        match matchFlagValue sr.2 with
        | some (w, rest') => some (kr.1, w, rest')
        | none => none
  | _ => none

/-- Global scan of the flag regex; a matched flag value is lowercased and
normalised to a boolean (`yes`/`t` are true), overwriting any binding the
value pass made for the same key. -/
def scanFlagsA : Nat → List Char → Args → Args
  | 0, _, args => args
  | _ + 1, [], args => args
  | fuel + 1, c :: rest, args =>
    match matchFlagAt (c :: rest) with
    | some (k, w, rest') =>
      let value := String.mk (w.map Char.toLower)
      scanFlagsA fuel rest'
        (setArg args (String.mk k) (Val.bool (value == "yes" || value == "t")))
    | none => scanFlagsA fuel rest args

/-- Anchored match of `^#\+begin_src\s+(\S+)(.*)$` (with the `i` flag):
case-insensitive literal, one-or-more spaces, a non-space language token,
and the remainder of the line as the raw argument text. -/
def matchBeginSrcLine (cs : List Char) : Option (List Char × List Char) :=
  match ciPref (String.toList ("#+begin_src")) cs with
  | none => none
  | some rest =>
    let sr := spanB wsChar rest
    if sr.1.isEmpty then none
    else
      let lr := spanB (fun c => !(wsChar c)) sr.2
      if lr.1.isEmpty then none
      else some (lr.1, lr.2)

/-- Embedding of `parseHeaderArgs` (lines 58-87): match the fence line,
trim the argument text, run the value pass and then the flag pass over it.
A line that does not match yields `('', \x7b\x7d)`. -/
def parseHeaderArgs (line : String) : String × Args :=
  match matchBeginSrcLine line.toList with
  | none => ("", [])
  | some (lang, rest) =>
    let argsStr := trimChars rest
    let a1 := scanArgsA (argsStr.length + 1) argsStr []
    let a2 := scanFlagsA (argsStr.length + 1) argsStr a1
    (String.mk lang, a2)

/-! ## File properties (`extractFileProperties`, lines 203-224) -/

/-- Anchored match of
`^#\+PROPERTY:\s+header-args(?::(\w+))?\s+(.+)$` (with the `i` flag) on an
already-trimmed line. Returns the captured language tag (`none` models the
absent optional group, mapped to `*` by the caller) and the argument text.
The `(.+)$` group backtracks one whitespace character out of `\s+` when the
line ends in whitespace, which is mirrored here. -/
def matchPropertyLine (cs : List Char) : Option (Option String × String) :=
  match ciPref (String.toList ("#+property:")) cs with
  | none => none
  | some r1 =>
    let s1 := spanB wsChar r1
    if s1.1.isEmpty then none
    else
      match ciPref (String.toList ("header-args")) s1.2 with
      | none => none
      | some r3 =>
        let langAndRest : Option (Option String × List Char) :=
          match r3 with
          | ':' :: r4 =>
            let lr := spanB wordChar r4
            if lr.1.isEmpty then none else some (some (String.mk lr.1), lr.2)
          | _ => some (none, r3)
        match langAndRest with
        | none => none
        | some (lang, r5) =>
          let s2 := spanB wsChar r5
          if s2.1.isEmpty then none
          else if s2.2.isEmpty then
            if s2.1.length ≥ 2 then
              some (lang, String.mk [s2.1.getLastD ' '])
            else none
          else some (lang, String.mk s2.2)

/-- Embedding of `extractFileProperties` (lines 203-224): scan every
normalised, trimmed line for a `PROPERTY: header-args[:LANG]` directive and
fold the parsed arguments into the per-language property map (the parsed
arguments are produced by `parseHeaderArgs` on a synthetic fence line,
exactly as in the source). -/
def extractFileProperties (content : String) : FileProps :=
  (splitNl (normalizeNl content)).foldl
    (fun props line =>
      match matchPropertyLine (jsTrim line).toList with
      | some (lang, argsStr) =>
        let lang := match lang with | some l => l | none => "*"
        let pr := parseHeaderArgs (("#+begin_src dummy ") ++ argsStr)
        setProp props lang (mergeArgs (getPropsD props lang) pr.2)
      | none => props)
    []

/-! ## Source blocks and the document scanner (`extractBlocks`, lines 96-196) -/

/-- Embedding of the `SourceBlock` record (lines 31-41). `name` is `none`
for the JS `null`; `endLine` is an integer because the scanner initialises
it to `-1`. -/
structure SourceBlock where
  name : Option String
  language : String
  content : String
  headerArgs : Args
  startLine : Nat
  contentStartLine : Nat
  endLine : Int
  sourcePath : String
deriving DecidableEq, Repr

/-- Scanner state of the `extractBlocks` loop: accumulated blocks, the
pending `#+name:` value, the in-block flags and the block under
construction. -/
structure ScanState where
  blocks : List SourceBlock
  currentName : Option String
  inBlock : Bool
  currentBlock : Option SourceBlock
  inExampleBlock : Bool
deriving DecidableEq, Repr

/-- Initial scanner state. -/
def initScan : ScanState :=
  { blocks := [], currentName := none, inBlock := false,
    currentBlock := none, inExampleBlock := false }

/-- Extraction of the text after the first colon, then trimmed: JS
`line.substring(line.indexOf(':') + 1).trim()` (when the line has no colon,
`indexOf` gives `-1` and the whole line is taken, which is mirrored). -/
def nameAfterColon (line : String) : String :=
  let l := line.toList
  let after := l.dropWhile (fun c => c != ':')
  String.mk (trimChars (if after.isEmpty then l else after.drop 1))

/-- Removal of one trailing newline: JS `content.replace(/\n$/, '')`. -/
def stripTrailingNl (s : String) : String :=
  match s.toList.getLast? with
  | some c => if c == '\n' then String.mk s.toList.dropLast else s
  | none => s

/-- Argument merge performed when a block opens (lines 139-149): document
globals, then the language-scoped properties (an exact JS property lookup
on the fence language as written), then the block-local arguments; a
block-local truthy `noweb-ref`/`nowebRef` with no block-local `tangle` key
forces `tangle` to the string `no`. -/
def mergeBlockArgs (props : FileProps) (language : String) (args : Args) : Args :=
  let globalProps := getPropsD props ("*")
  let langProps := getPropsD props language
  let mergedArgs := mergeArgs (mergeArgs globalProps langProps) args
  let hasNowebRef := truthyVal (getArg args ("noweb-ref")) || truthyVal (getArg args ("nowebRef"))
  let hasTangleInBlock := (getArg args ("tangle")).isSome
  if hasNowebRef && !hasTangleInBlock then
    setArg mergedArgs ("tangle") (Val.str ("no"))
  else mergedArgs

/-- Comma-escape stripping applied to a content line (lines 180-191): drop
one leading comma, then the two narrower substitutions (the first one, a
newline followed by a comma before a fence marker, can never fire on a
single line and is kept for fidelity). -/
def stripEscapes (line : String) : String :=
  let contentLine := if jsStarts line (",") then jsDropStr line 1 else line
  let contentLine := jsReplaceAll contentLine ("\n,#+") ("\n#+")
  jsReplaceAll contentLine ("`,#+") ("`#+")

/-- One iteration of the `extractBlocks` loop (lines 106-193), with the
branches in source order: example-fence tracking, the example-skip, the
pending name, block open (with merged arguments), block close, and content
accumulation. `i` is the loop index of the line. -/
def scanLine (sourcePath : String) (props : FileProps) (st : ScanState)
    (i : Nat) (line : String) : ScanState :=
  let trimmed := jsLower (jsTrim line)
  let isAtColumnZero := jsStarts line ("#+")
  if !st.inBlock && isAtColumnZero && jsStarts trimmed ("#+begin_example") then
    { st with inExampleBlock := true }
  else if !st.inBlock && isAtColumnZero && jsStarts trimmed ("#+end_example") then
    { st with inExampleBlock := false }
  else if st.inExampleBlock then st
  else if isAtColumnZero && jsStarts trimmed ("#+name:") && !st.inBlock then
    { st with currentName := some (nameAfterColon line) }
  else if isAtColumnZero && jsStarts trimmed ("#+begin_src") && !st.inBlock then
    let pr := parseHeaderArgs (jsTrim line)
    { st with
      currentBlock := some
        { name := st.currentName, language := pr.1, content := "",
          headerArgs := mergeBlockArgs props pr.1 pr.2,
          startLine := i, contentStartLine := i + 1, endLine := -1,
          sourcePath := sourcePath },
      inBlock := true, currentName := none }
  else if isAtColumnZero && jsStarts trimmed ("#+end_src") && st.inBlock then
    match st.currentBlock with
    | some cb =>
      let cb := { cb with endLine := (i : Int), content := stripTrailingNl cb.content }
      { st with blocks := st.blocks ++ [cb], currentBlock := none, inBlock := false }
    | none => { st with currentBlock := none, inBlock := false }
  else if st.inBlock && st.currentBlock.isSome then
    match st.currentBlock with
    | some cb =>
      let cb := { cb with content := cb.content ++ stripEscapes line ++ "\n" }
      { st with currentBlock := some cb }
    | none => st
  else st

/-- Fold of `scanLine` over the document lines with the loop index. -/
def scanLines (sourcePath : String) (props : FileProps) :
    Nat → ScanState → List String → ScanState
  | _, st, [] => st
  | i, st, l :: ls => scanLines sourcePath props (i + 1) (scanLine sourcePath props st i l) ls

/-- Embedding of `extractBlocks` (lines 96-196): normalise line endings,
split into lines, run the scanner, and return the finished blocks (a block
still open at end of input is dropped, as in the source). -/
def extractBlocks (content sourcePath : String) (props : FileProps) : List SourceBlock :=
  (scanLines sourcePath props 0 initScan (splitNl (normalizeNl content))).blocks

/-! ## Reference index (`buildBlockIndex`, lines 235-256) -/

/-- Reference index: a JS `Map` in insertion order. Keys are `Val`s, not
strings, because the source inserts the raw `noweb-ref` header value,
which the flag pass may have turned into a boolean (such an entry is then
unreachable from the string lookups of the expander, and that is
faithfully preserved here). -/
abbrev Index := List (Val × List SourceBlock)

/-- Key-presence test of the JS `Map.has`. -/
def indexHas : Index → Val → Bool
  | [], _ => false
  | p :: rest, k => p.1 == k || indexHas rest k

/-- Push of a block onto the list stored at an existing key. -/
def indexPush : Index → Val → SourceBlock → Index
  | [], _, _ => []
  | p :: rest, k, b =>
    if p.1 == k then (p.1, p.2 ++ [b]) :: rest else p :: indexPush rest k b

/-- Insertion step of `buildBlockIndex`: create the entry if absent, then
push (models `if (!index.has(k)) index.set(k, []); index.get(k).push(b)`). -/
def indexAdd (ix : Index) (k : Val) (b : SourceBlock) : Index :=
  if indexHas ix k then indexPush ix k b else ix ++ [(k, [b])]

/-- Value of `block.headerArgs['noweb-ref'] || block.headerArgs.nowebRef`
as observed under the truthiness guard of the source: the first truthy of
the two, else `none`. -/
def nowebRefVal (b : SourceBlock) : Option Val :=
  let a := getArg b.headerArgs ("noweb-ref")
  if truthyVal a then a
  else
    let c := getArg b.headerArgs ("nowebRef")
    if truthyVal c then c else none

/-- Embedding of `buildBlockIndex` (lines 235-256): index every block under
its truthy `name`, and additionally under its truthy `noweb-ref` value when
that value differs (JS strict inequality) from the name. -/
def buildBlockIndex (blocks : List SourceBlock) : Index :=
  blocks.foldl
    (fun ix b =>
      let ix1 := match b.name with
        | some n => if n != "" then indexAdd ix (Val.str n) b else ix
        | none => ix
      match nowebRefVal b with
      | some v =>
        let differs := match v, b.name with
          | Val.str s, some n => s != n
          | _, _ => true
        if differs then indexAdd ix1 v b else ix1
      | none => ix1)
    []

/-- String-keyed lookup of the expander, `blockIndex.get(refName)`. -/
def lookupIndex : Index → String → Option (List SourceBlock)
  | [], _ => none
  | p :: rest, nm => if p.1 == Val.str nm then some p.2 else lookupIndex rest nm

/-! ## Noweb expansion (`expandNoweb`, lines 266-315) -/

/-- Match of the reference-line regex `^(\s*)<<([^>]+)>>(.*)$`: leading
whitespace, a non-empty name without `>`, the closing `>>`, and the
trailing text. -/
def parseRefLine (line : String) : Option (String × String × String) :=
  let ws := spanB wsChar line.toList
  match ws.2 with
  | '<' :: '<' :: rest2 =>
    let nr := spanB (fun c => c != '>') rest2
    if nr.1.isEmpty then none
    else
      match nr.2 with
      | '>' :: '>' :: tr => some (String.mk ws.1, String.mk nr.1, String.mk tr)
      | _ => none
  | _ => none

/-- Appending of the trailing text to the last emitted line, modelling
`result[result.length - 1] += trailing` (the result list is never empty at
that point in the source; the empty case is the identity). -/
def appendToLast : List String → String → List String
  | [], _ => []
  | [l], tr => [l ++ tr]
  | l :: ls, tr => l :: appendToLast ls tr

/-- Number of index entries whose key is a string not yet on the visited
stack; the termination measure of the expander (boolean keys can never be
visited and count as constant). -/
def freeCount (ix : Index) (visited : List String) : Nat :=
  match ix with
  | [] => 0
  | p :: rest =>
    (match p.1 with
     | Val.str s => if memB s visited then 0 else 1
     | Val.bool _ => 1) + freeCount rest visited

theorem freeCount_le (ix : Index) (v : List String) (nm : String) :
    freeCount ix (nm :: v) ≤ freeCount ix v := by
  induction ix with
  | nil => simp [freeCount]
  | cons p rest ih =>
    obtain ⟨pk, pv⟩ := p
    simp only [freeCount]
    have hh : (match pk with
        | Val.str s => if memB s (nm :: v) then 0 else 1
        | Val.bool _ => 1) ≤ (match pk with
        | Val.str s => if memB s v then (0 : Nat) else 1
        | Val.bool _ => 1) := by
      match pk with
      | Val.bool _ => exact Nat.le_refl 1
      | Val.str s =>
        simp only [memB]
        by_cases hb : memB s v = true
        · simp [hb]
        · have hb' : memB s v = false := by simpa using hb
          by_cases ha : (nm == s) = true
          · simp [hb', ha]
          · have ha' : (nm == s) = false := by simpa using ha
            simp [hb', ha']
    omega

theorem freeCount_lt (ix : Index) (v : List String) (nm : String)
    (hl : (lookupIndex ix nm).isSome) (hv : memB nm v = false) :
    freeCount ix (nm :: v) < freeCount ix v := by
  induction ix with
  | nil => simp [lookupIndex] at hl
  | cons p rest ih =>
    obtain ⟨pk, pv⟩ := p
    simp only [lookupIndex] at hl
    by_cases h : pk = Val.str nm
    · have hle := freeCount_le rest v nm
      subst h
      simp [freeCount, memB, hv]
      omega
    · have hb : (pk == Val.str nm) = false := beq_eq_false_iff_ne.mpr h
      simp only [hb, Bool.false_eq_true, if_false] at hl
      have hlt := ih hl
      cases pk with
      | bool b =>
        simp only [freeCount]
        omega
      | str s =>
        have hs : (nm == s) = false := by
          apply beq_eq_false_iff_ne.mpr
          intro he
          exact h (by rw [he])
        simp only [freeCount, memB, hs, Bool.false_or]
        omega

mutual
/-- Per-line loop of `expandNoweb` (lines 270-312): a non-reference line is
emitted with the outer indent prepended; a reference line either reports a
cycle, stays literal when unresolved, or splices the expansion of every
block registered under the name (with the trailing text appended to the
last spliced line). -/
def expandLines (index : Index) (visited : List String) (indent : String) :
    List String → List String
  | [] => []
  | line :: rest =>
    match parseRefLine line with
    | none => (indent ++ line) :: expandLines index visited indent rest
    | some (li, nm, tr) =>
      let totalIndent := indent ++ li
      if h2 : memB nm visited then
        (totalIndent ++ ("/* ERROR: Circular reference to ") ++ nm ++ (" */") ++ tr)
          :: expandLines index visited indent rest
      else
        match h3 : lookupIndex index nm with
        | none =>
          (totalIndent ++ ("<<") ++ nm ++ (">>") ++ tr)
            :: expandLines index visited indent rest
        | some [] =>
          (totalIndent ++ ("<<") ++ nm ++ (">>") ++ tr)
            :: expandLines index visited indent rest
        | some (b :: bs) =>
          let chunk := expandBlocksList index (nm :: visited) totalIndent (b :: bs)
          (if tr != "" then appendToLast chunk tr else chunk)
            ++ expandLines index visited indent rest
termination_by ls => (freeCount index visited, 0, ls.length)
decreasing_by
  all_goals simp_wf
  all_goals first
    | (apply Prod.Lex.right; apply Prod.Lex.right; omega)
    | (apply Prod.Lex.right; apply Prod.Lex.left; omega)
    | (apply Prod.Lex.left
       exact freeCount_lt _ _ _ (by rw [h3]; rfl) (by simpa using h2))

/-- Per-referenced-block loop of `expandNoweb` (lines 291-303): each block
body is recursively expanded with the name pushed on the visited stack and
the site's total indent as the new outer indent; one empty separator line
is inserted between successive blocks (never after the last). -/
def expandBlocksList (index : Index) (visited : List String) (indent : String) :
    List SourceBlock → List String
  | [] => []
  | [b] => expandLines index visited indent (splitNl b.content)
  | b :: b2 :: bs =>
    expandLines index visited indent (splitNl b.content)
      ++ [""] ++ expandBlocksList index visited indent (b2 :: bs)
termination_by bs => (freeCount index visited, 1, bs.length)
decreasing_by
  all_goals simp_wf
  all_goals first
    | (apply Prod.Lex.right; apply Prod.Lex.right; omega)
    | (apply Prod.Lex.right; apply Prod.Lex.left; omega)
end

/-- Embedding of `expandNoweb` (lines 266-315): split into lines, run the
per-line loop, and join with single newlines. The JS recursion joins and
re-splits intermediate results; that round trip is the identity because no
emitted line contains a newline, so the line-list formulation is exact. -/
def expandNoweb (content : String) (index : Index) (visited : List String)
    (indent : String) : String :=
  jsJoin ("\n") (expandLines index visited indent (splitNl content))

/-! ## Target grouping (`groupByTarget`, lines 406-444) and framing -/

/-- Embedding of `getExtensionForLanguage` (lines 326-335). -/
def getExtensionForLanguage (lang : String) : String :=
  match jsLower lang with
  | "typescript" => ".ts"
  | "javascript" => ".js"
  | "python" => ".py"
  | "rust" => ".rs"
  | "go" => ".go"
  | "java" => ".java"
  | "c" => ".c"
  | "cpp" => ".cpp"
  | "sh" => ".sh"
  | "bash" => ".sh"
  | "ruby" => ".rb"
  | "json" => ".json"
  | "yaml" => ".yaml"
  | "yml" => ".yml"
  | "markdown" => ".md"
  | "org" => ".org"
  | _ => ".txt"

/-- Model of Node `path.dirname` for forward-slash paths without trailing
slashes (the only shapes produced in this development). -/
def dirname (p : String) : String :=
  let rev := p.toList.reverse
  let afterFile := rev.dropWhile (fun c => c != '/')
  match afterFile with
  | [] => "."
  | _ :: rest2 => if rest2.isEmpty then ("/") else String.mk rest2.reverse

/-- Model of Node `path.resolve(dir, p)` with the process working directory
passed explicitly; `.` and `..` segment normalisation is not performed
(no claim depends on it). -/
def resolvePath (cwd dir p : String) : String :=
  if jsStarts p ("/") then p
  else if jsStarts dir ("/") then dir ++ ("/") ++ p
  else cwd ++ ("/") ++ dir ++ ("/") ++ p

/-- Model of Node `path.relative(cwd, p)`, simplified to stripping the
working-directory prefix (sufficient for the absolute paths used here). -/
def relPath (cwd p : String) : String :=
  if jsStarts p (cwd ++ ("/")) then jsDropStr p (cwd.toList.length + 1) else p

/-- Removal of a trailing `.org` (regex `\.org$`). -/
def stripOrgSuffix (p : String) : String :=
  if jsEnds p (".org") then String.mk (p.toList.take (p.toList.length - 4)) else p

/-- Target map insertion: create the entry if absent, then push the block. -/
def targetsAdd : List (String × List SourceBlock) → String → SourceBlock →
    List (String × List SourceBlock)
  | [], path, b => [(path, [b])]
  | p :: rest, path, b =>
    if p.1 == path then (p.1, p.2 ++ [b]) :: rest else p :: targetsAdd rest path b

/-- Target-path resolution of `groupByTarget` (lines 423-435): `yes` or
boolean true derive the path from the source basename (with `.org`
stripped) and the language extension; any other string is resolved against
the source document's directory. The boolean fallback arm is unreachable
(boolean true is caught by the first test, boolean false never reaches
path resolution). -/
def groupPath (cwd : String) (b : SourceBlock) (t : Val) : String :=
  if t == Val.bool true || t == Val.str ("yes") then
    stripOrgSuffix b.sourcePath ++ getExtensionForLanguage b.language
  else
    match t with
    | Val.str s => resolvePath cwd (dirname b.sourcePath) s
    | Val.bool _ => stripOrgSuffix b.sourcePath ++ getExtensionForLanguage b.language

/-- Loop body of `groupByTarget` (lines 409-440): skip blocks whose merged
arguments have a truthy `noweb-ref`/`nowebRef` (the source's
`hasNowebRef`) and no `tangle` key (`hasTangle`), skip absent, falsy or
`no` tangle values, then file the block under its resolved path. -/
def groupStep (cwd : String) (targets : List (String × List SourceBlock))
    (b : SourceBlock) : List (String × List SourceBlock) :=
  if (truthyVal (getArg b.headerArgs ("noweb-ref")) ||
      truthyVal (getArg b.headerArgs ("nowebRef"))) &&
      !(getArg b.headerArgs ("tangle")).isSome then targets
  else
    match getArg b.headerArgs ("tangle") with
    | none => targets
    | some t =>
      if !(Val.truthy t) || t == Val.str ("no") then targets
      else targetsAdd targets (groupPath cwd b t) b

/-- Embedding of `groupByTarget` (lines 406-444). The `baseDir` parameter
is kept because the source takes it (and never reads it); `cwd` models
`process.cwd()` inside `path.resolve`. -/
def groupByTarget (blocks : List SourceBlock) (baseDir cwd : String) :
    List (String × List SourceBlock) :=
  blocks.foldl (groupStep cwd) []

/-- Embedding of `getCommentPrefix` (lines 342-380): the comment lead-in
keyed on the lowercased last dot-component of the target path. -/
def commentLeadIn (targetPath : String) : String :=
  let ext := jsLower (String.mk ((splitCh '.' targetPath.toList).getLastD []))
  match ext with
  | "py" => "#"
  | "sh" => "#"
  | "bash" => "#"
  | "zsh" => "#"
  | "fish" => "#"
  | "toml" => "#"
  | "rb" => "#"
  | "pl" => "#"
  | "r" => "#"
  | "lisp" => ";;"
  | "el" => ";;"
  | "clj" => ";;"
  | "scm" => ";;"
  | "lua" => "--"
  | "sql" => "--"
  | "hs" => "--"
  | "css" => "/*"
  | "html" => "<!--"
  | "xml" => "<!--"
  | "json" => ""
  | "yaml" => ""
  | "yml" => ""
  | "md" => ""
  | "org" => ""
  | "wasm" => ""
  | "txt" => ""
  | _ => "//"

/-- Embedding of `getCommentSuffix` (lines 387-398). -/
def getCommentSuffix (targetPath : String) : String :=
  let ext := jsLower (String.mk ((splitCh '.' targetPath.toList).getLastD []))
  match ext with
  | "css" => " */"
  | "html" => " -->"
  | "xml" => " -->"
  | _ => ""

/-! ## Content generation (`generateContent`, lines 453-523) -/

/-- Shebang search of `generateContent` (lines 472-487), scanning the
blocks in order: a block with a truthy `shebang` header argument supplies
it; otherwise, if that same block's content starts with `#!`, the first
content line is taken as the shebang and removed from the block (the JS
code mutates `block.content` in place; the returned list carries that
mutation). When neither holds the scan moves to the next block. -/
def liftShebang : List SourceBlock → Option String × List SourceBlock
  | [] => (none, [])
  | b :: bs =>
    if truthyVal (getArg b.headerArgs ("shebang")) then
      (some (jsToString (getArg b.headerArgs ("shebang"))), b :: bs)
    else
      let firstLine := (splitNl b.content).headD ("")
      if firstLine != "" && jsStarts firstLine ("#!") then
        (some firstLine,
          { b with content := jsDropStr b.content (firstLine.toList.length + 1) } :: bs)
      else
        let r := liftShebang bs
        (r.1, b :: r.2)

/-- First-occurrence deduplication, modelling `[...new Set(xs)]`. -/
def dedupFirst (seen : List String) : List String → List String
  | [] => []
  | x :: rest =>
    if memB x seen then dedupFirst seen rest
    else x :: dedupFirst (x :: seen) rest

/-- JS `block.name || 'unnamed'`. -/
def jsNameOr : Option String → String
  | some n => if n != "" then n else "unnamed"
  | none => "unnamed"

/-- Parts contributed by one block of a target (body of the per-block loop,
lines 504-520): the optional location comment, the expanded content
(expansion bypassed for `.org` targets), and the optional footer plus
separator. -/
def blockParts (skipComments : Bool) (leadIn sfx cwd : String) (isOrg : Bool)
    (index : Index) (b : SourceBlock) : List String :=
  let loc := if !skipComments && leadIn != "" then
      [leadIn ++ (" [[file:") ++ relPath cwd b.sourcePath ++ ("::") ++
        toString (b.startLine + 1) ++ ("]]") ++ sfx]
    else []
  let expanded := if isOrg then b.content else expandNoweb b.content index [] ("")
  let footer := if !skipComments && leadIn != "" then
      [leadIn ++ (" ") ++ jsNameOr b.name ++ (" ends here") ++ sfx, ("")]
    else []
  loc ++ [expanded] ++ footer

/-- Embedding of `generateContent` (lines 453-523). Returns the generated
file text together with the block list after the shebang mutation (the JS
function mutates the shared block objects; the returned list makes that
effect observable). The per-block loop is expressed as a concatenation of
per-block part lists, which is exactly what the JS `parts.push` loop
builds. -/
def generateContent (blocks : List SourceBlock) (index : Index)
    (targetPath cwd : String) : String × List SourceBlock :=
  let isOrg := jsEnds targetPath (".org")
  let noComments := blocks.any (fun b =>
    getArg b.headerArgs ("comments") == some (Val.str ("no")) ||
    getArg b.headerArgs ("comments") == some (Val.bool false))
  let skipComments := jsEnds targetPath (".json") || jsEnds targetPath (".yaml") ||
    jsEnds targetPath (".yml") || jsEnds targetPath (".md") || isOrg ||
    jsEnds targetPath (".wasm") || noComments
  let lifted := liftShebang blocks
  let leadIn := commentLeadIn targetPath
  let sfx := getCommentSuffix targetPath
  let shebangParts : List String := match lifted.1 with
    | some s => [s]
    | none => []
  let headerParts := if !skipComments && leadIn != "" then
      [leadIn ++ (" This file is auto-generated by organjsm tangle. Do not edit directly.") ++ sfx,
       leadIn ++ (" Source: ") ++
         jsJoin (", ") (dedupFirst [] (lifted.2.map (fun b => relPath cwd b.sourcePath))) ++ sfx,
       ("")]
    else []
  let bodyParts := lifted.2.flatMap (blockParts skipComments leadIn sfx cwd isOrg index)
  (jsJoin ("\n") (shebangParts ++ headerParts ++ bodyParts), lifted.2)

/-! ## Write loop of `main` (lines 655-673 and 685-688) -/

/-- Abstract filesystem outcomes for the write loop: whether a directory
exists, and whether `mkdirSync` / `writeFileSync` throw for a given path. -/
structure WriteFs where
  dirExists : String → Bool
  mkdirFails : String → Bool
  writeFails : String → Bool

/-- Embedding of the target-writing loop of `main` (lines 655-673, non-dry
run). The loop body has no try/catch, so a thrown `mkdirSync` or
`writeFileSync` error propagates out of `main` into `main().catch` (lines
685-688), which logs it and exits: the iteration stops at the first
failure. The result is the list of paths written before the failure,
together with the surfaced error message (if any). -/
def writeTargets (fs : WriteFs) : List (String × String) → List String × Option String
  | [] => ([], none)
  | (targetPath, _content) :: rest =>
    let dir := dirname targetPath
    if !fs.dirExists dir && fs.mkdirFails dir then
      ([], some (("mkdir failed: ") ++ dir))
    else if fs.writeFails targetPath then
      ([], some (("write failed: ") ++ targetPath))
    else
      let r := writeTargets fs rest
      (targetPath :: r.1, r.2)

/-! ## Basic lemmas about the string model -/

theorem strToList_append (a b : String) : (a ++ b).toList = a.toList ++ b.toList := by
  cases a
  cases b
  rfl

theorem strMk_toList (s : String) : String.mk s.toList = s := by
  cases s
  rfl

theorem spanB_stops (p : Char → Bool) (a : List Char) (c : Char) (t : List Char)
    (ha : a.all p = true) (hc : p c = false) : spanB p (a ++ c :: t) = (a, c :: t) := by
  induction a with
  | nil => simp [spanB, hc]
  | cons x xs ih =>
    simp only [List.all_cons, Bool.and_eq_true] at ha
    simp [spanB, ha.1, ih ha.2]

theorem spanB_all (p : Char → Bool) (a : List Char) (ha : a.all p = true) :
    spanB p a = (a, []) := by
  induction a with
  | nil => rfl
  | cons x xs ih =>
    simp only [List.all_cons, Bool.and_eq_true] at ha
    simp [spanB, ha.1, ih ha.2]

/-- Characterisation of the reference-line regex on a line assembled from
its three parts. -/
theorem parseRefLine_mk (li nm tr : String)
    (h1 : li.toList.all wsChar = true)
    (h2 : nm.toList ≠ [])
    (h3 : nm.toList.all (fun c => c != '>') = true) :
    parseRefLine (li ++ ("<<") ++ nm ++ (">>") ++ tr) = some (li, nm, tr) := by
  have htl : (li ++ ("<<") ++ nm ++ (">>") ++ tr).toList =
      li.toList ++ '<' :: '<' :: (nm.toList ++ '>' :: '>' :: tr.toList) := by
    simp [strToList_append]
  unfold parseRefLine
  rw [htl]
  rw [show li.toList ++ '<' :: '<' :: (nm.toList ++ '>' :: '>' :: tr.toList) =
      li.toList ++ ('<' :: ('<' :: (nm.toList ++ '>' :: '>' :: tr.toList))) from rfl]
  rw [spanB_stops wsChar li.toList '<' _ h1 (by decide)]
  simp only []
  rw [spanB_stops (fun c => c != '>') nm.toList '>' ('>' :: tr.toList) h3 (by decide)]
  simp only [List.isEmpty_iff]
  rw [if_neg h2]
  simp [strMk_toList]

/-! ## Step equations of the expander -/

theorem expandLines_nil (ix : Index) (v : List String) (ind : String) :
    expandLines ix v ind [] = [] := by
  rw [expandLines.eq_def]

theorem expandLines_plain (ix : Index) (v : List String) (ind line : String)
    (rest : List String) (h : parseRefLine line = none) :
    expandLines ix v ind (line :: rest) =
      (ind ++ line) :: expandLines ix v ind rest := by
  rw [expandLines.eq_def]
  simp [h]

theorem expandLines_cycle (ix : Index) (v : List String) (ind line li nm tr : String)
    (rest : List String) (h : parseRefLine line = some (li, nm, tr))
    (hv : memB nm v = true) :
    expandLines ix v ind (line :: rest) =
      (ind ++ li ++ ("/* ERROR: Circular reference to ") ++ nm ++ (" */") ++ tr)
        :: expandLines ix v ind rest := by
  rw [expandLines.eq_def]
  simp [h, hv]

theorem expandLines_unresolved (ix : Index) (v : List String) (ind line li nm tr : String)
    (rest : List String) (h : parseRefLine line = some (li, nm, tr))
    (hv : memB nm v = false)
    (hl : lookupIndex ix nm = none ∨ lookupIndex ix nm = some []) :
    expandLines ix v ind (line :: rest) =
      (ind ++ li ++ ("<<") ++ nm ++ (">>") ++ tr) :: expandLines ix v ind rest := by
  rw [expandLines.eq_def]
  simp only [h, hv, Bool.false_eq_true, dite_false]
  split
  · rfl
  · rfl
  · rename_i b' bs' heq
    rcases hl with hl | hl <;> rw [hl] at heq <;> simp at heq

theorem expandLines_ref (ix : Index) (v : List String) (ind line li nm tr : String)
    (rest : List String) (b : SourceBlock) (bs : List SourceBlock)
    (h : parseRefLine line = some (li, nm, tr))
    (hv : memB nm v = false)
    (hl : lookupIndex ix nm = some (b :: bs)) :
    expandLines ix v ind (line :: rest) =
      (if tr = "" then expandBlocksList ix (nm :: v) (ind ++ li) (b :: bs)
       else appendToLast (expandBlocksList ix (nm :: v) (ind ++ li) (b :: bs)) tr)
        ++ expandLines ix v ind rest := by
  rw [expandLines.eq_def]
  simp only [h, hv, Bool.false_eq_true, dite_false]
  split
  · rename_i heq
    rw [hl] at heq
    simp at heq
  · rename_i heq
    rw [hl] at heq
    simp at heq
  · rename_i b' bs' heq
    rw [hl] at heq
    have hb : b = b' ∧ bs = bs' := by
      have := Option.some.inj heq
      exact ⟨(List.cons.inj this).1, (List.cons.inj this).2⟩
    obtain ⟨hb1, hb2⟩ := hb
    subst hb1
    subst hb2
    by_cases htr : tr = ""
    · simp [htr]
    · have htr' : (tr != "") = true := by simpa using htr
      simp [htr, htr']

theorem expandBlocksList_nil (ix : Index) (v : List String) (ind : String) :
    expandBlocksList ix v ind [] = [] := by
  rw [expandBlocksList.eq_def]

theorem expandBlocksList_single (ix : Index) (v : List String) (ind : String)
    (b : SourceBlock) :
    expandBlocksList ix v ind [b] = expandLines ix v ind (splitNl b.content) := by
  rw [expandBlocksList.eq_def]

theorem expandBlocksList_cons (ix : Index) (v : List String) (ind : String)
    (b b2 : SourceBlock) (bs : List SourceBlock) :
    expandBlocksList ix v ind (b :: b2 :: bs) =
      expandLines ix v ind (splitNl b.content)
        ++ [""] ++ expandBlocksList ix v ind (b2 :: bs) := by
  rw [expandBlocksList.eq_def]

/-! ## Indentation-preservation auxiliaries -/

theorem splitCh_ne_nil (sep : Char) (l : List Char) : splitCh sep l ≠ [] := by
  cases l with
  | nil => simp [splitCh]
  | cons c rest =>
    simp only [splitCh]
    by_cases h : (c == sep) = true
    · simp [h]
    · have h' : (c == sep) = false := by simpa using h
      simp only [h', Bool.false_eq_true, if_false]
      cases hs : splitCh sep rest <;> simp

theorem splitNl_ne_nil (s : String) : splitNl s ≠ [] := by
  unfold splitNl
  have := splitCh_ne_nil '\n' s.toList
  cases h : splitCh '\n' s.toList with
  | nil => exact absurd h this
  | cons a t => simp [h]

theorem getLast?_cons_of_ne {α : Type} (x : α) (xs : List α) (h : xs ≠ []) :
    (x :: xs).getLast? = xs.getLast? := by
  cases xs with
  | nil => exact absurd rfl h
  | cons y ys => exact List.getLast?_cons_cons

theorem appendToLast_ne_nil (ls : List String) (tr : String) (h : ls ≠ []) :
    appendToLast ls tr ≠ [] := by
  match ls with
  | [] => exact absurd rfl h
  | [l] => simp [appendToLast]
  | l :: l2 :: rest => simp [appendToLast]

theorem appendToLast_indent (ind tr : String) :
    ∀ ls : List String,
      (∀ l ∈ ls, l = "" ∨ ∃ t, l = ind ++ t) →
      (∀ x, ls.getLast? = some x → ∃ t, x = ind ++ t) →
      (∀ l ∈ appendToLast ls tr, l = "" ∨ ∃ t, l = ind ++ t) ∧
      (∀ x, (appendToLast ls tr).getLast? = some x → ∃ t, x = ind ++ t)
  | [], _, _ => by simp [appendToLast]
  | [l], hmem, hlast => by
    obtain ⟨t, ht⟩ := hlast l rfl
    constructor
    · intro x hx
      simp only [appendToLast, List.mem_singleton] at hx
      subst hx
      right
      exact ⟨t ++ tr, by rw [ht, String.append_assoc]⟩
    · intro x hx
      simp only [appendToLast, List.getLast?_singleton, Option.some.injEq] at hx
      subst hx
      exact ⟨t ++ tr, by rw [ht, String.append_assoc]⟩
  | l :: l2 :: rest, hmem, hlast => by
    have hmem2 : ∀ x ∈ l2 :: rest, x = "" ∨ ∃ t, x = ind ++ t := by
      intro x hx
      exact hmem x (List.mem_cons_of_mem l hx)
    have hlast2 : ∀ x, (l2 :: rest).getLast? = some x → ∃ t, x = ind ++ t := by
      intro x hx
      apply hlast
      rw [List.getLast?_cons_cons]
      exact hx
    have ih := appendToLast_indent ind tr (l2 :: rest) hmem2 hlast2
    have hne : appendToLast (l2 :: rest) tr ≠ [] :=
      appendToLast_ne_nil (l2 :: rest) tr (by simp)
    constructor
    · intro x hx
      simp only [appendToLast] at hx
      rcases List.mem_cons.mp hx with h | h
      · subst h
        exact hmem _ (by simp)
      · exact ih.1 x h
    · intro x hx
      simp only [appendToLast] at hx
      rw [getLast?_cons_of_ne l _ hne] at hx
      exact ih.2 x hx

theorem indentConsCase (ind hd suffix : String) (hhd : hd = ind ++ suffix)
    (out2 : List String)
    (h2m : ∀ l ∈ out2, l = "" ∨ ∃ t, l = ind ++ t)
    (h2l : ∀ x, out2.getLast? = some x → ∃ t, x = ind ++ t) :
    (∀ l ∈ hd :: out2, l = "" ∨ ∃ t, l = ind ++ t) ∧
    (∀ x, (hd :: out2).getLast? = some x → ∃ t, x = ind ++ t) ∧
    hd :: out2 ≠ [] := by
  refine ⟨?_, ?_, by simp⟩
  · intro l hl
    rcases List.mem_cons.mp hl with h | h
    · subst h
      right
      exact ⟨suffix, hhd⟩
    · exact h2m l h
  · intro x hx
    cases ho : out2 with
    | nil =>
      rw [ho] at hx
      simp only [List.getLast?_singleton, Option.some.injEq] at hx
      exact ⟨suffix, by rw [← hx, hhd]⟩
    | cons y ys =>
      rw [ho, List.getLast?_cons_cons, ← ho] at hx
      exact h2l x hx

theorem indentAssemble (ind : String) (c1 c2 : List String)
    (h1m : ∀ l ∈ c1, l = "" ∨ ∃ t, l = ind ++ t)
    (h1l : ∀ x, c1.getLast? = some x → ∃ t, x = ind ++ t)
    (h1n : c1 ≠ [])
    (h2m : ∀ l ∈ c2, l = "" ∨ ∃ t, l = ind ++ t)
    (h2l : ∀ x, c2.getLast? = some x → ∃ t, x = ind ++ t) :
    (∀ l ∈ c1 ++ c2, l = "" ∨ ∃ t, l = ind ++ t) ∧
    (∀ x, (c1 ++ c2).getLast? = some x → ∃ t, x = ind ++ t) ∧
    c1 ++ c2 ≠ [] := by
  refine ⟨?_, ?_, ?_⟩
  · intro l hl
    rcases List.mem_append.mp hl with h | h
    · exact h1m l h
    · exact h2m l h
  · intro x hx
    cases hc2 : c2 with
    | nil =>
      rw [hc2, List.append_nil] at hx
      exact h1l x hx
    | cons y ys =>
      rw [hc2, List.getLast?_append_of_ne_nil c1 (by simp), ← hc2] at hx
      exact h2l x hx
  · intro h
    exact h1n (List.append_eq_nil.mp h).1

mutual
/-- Indentation preservation of the per-line expansion loop: every emitted
line either carries the accumulated outer indent as a prefix or is the
empty separator line; the last emitted line always carries the indent, and
a non-empty input yields a non-empty output. -/
theorem expandLines_indent (ix : Index) (v : List String) (ind : String) :
    ∀ ls : List String,
      (∀ l ∈ expandLines ix v ind ls, l = "" ∨ ∃ t, l = ind ++ t) ∧
      (∀ x, (expandLines ix v ind ls).getLast? = some x → ∃ t, x = ind ++ t) ∧
      (ls ≠ [] → expandLines ix v ind ls ≠ [])
  | [] => by
    rw [expandLines_nil]
    exact ⟨by simp, by simp, fun h => absurd rfl h⟩
  | line :: rest => by
    cases hp : parseRefLine line with
    | none =>
      rw [expandLines_plain ix v ind line rest hp]
      have ih := expandLines_indent ix v ind rest
      have c := indentConsCase ind (ind ++ line) line rfl _ ih.1 ih.2.1
      exact ⟨c.1, c.2.1, fun _ => c.2.2⟩
    | some res =>
      obtain ⟨li, nm, tr⟩ := res
      cases hv : memB nm v with
      | true =>
        rw [expandLines_cycle ix v ind line li nm tr rest hp hv]
        have ih := expandLines_indent ix v ind rest
        have c := indentConsCase ind
          (ind ++ li ++ ("/* ERROR: Circular reference to ") ++ nm ++ (" */") ++ tr)
          (li ++ ("/* ERROR: Circular reference to ") ++ nm ++ (" */") ++ tr)
          (by simp [String.append_assoc]) _ ih.1 ih.2.1
        exact ⟨c.1, c.2.1, fun _ => c.2.2⟩
      | false =>
        cases hlook : lookupIndex ix nm with
        | none =>
          rw [expandLines_unresolved ix v ind line li nm tr rest hp hv (Or.inl hlook)]
          have ih := expandLines_indent ix v ind rest
          have c := indentConsCase ind
            (ind ++ li ++ ("<<") ++ nm ++ (">>") ++ tr)
            (li ++ ("<<") ++ nm ++ (">>") ++ tr)
            (by simp [String.append_assoc]) _ ih.1 ih.2.1
          exact ⟨c.1, c.2.1, fun _ => c.2.2⟩
        | some bsl =>
          cases bsl with
          | nil =>
            rw [expandLines_unresolved ix v ind line li nm tr rest hp hv (Or.inr hlook)]
            have ih := expandLines_indent ix v ind rest
            have c := indentConsCase ind
              (ind ++ li ++ ("<<") ++ nm ++ (">>") ++ tr)
              (li ++ ("<<") ++ nm ++ (">>") ++ tr)
              (by simp [String.append_assoc]) _ ih.1 ih.2.1
            exact ⟨c.1, c.2.1, fun _ => c.2.2⟩
          | cons b bs =>
            rw [expandLines_ref ix v ind line li nm tr rest b bs hp hv hlook]
            have ihc := expandBlocksList_indent ix (nm :: v) (ind ++ li) (b :: bs)
            have ihr := expandLines_indent ix v ind rest
            have hmemC : ∀ l ∈ expandBlocksList ix (nm :: v) (ind ++ li) (b :: bs),
                l = "" ∨ ∃ t, l = ind ++ t := by
              intro l hl
              rcases ihc.1 l hl with h | ⟨t, ht⟩
              · exact Or.inl h
              · right
                exact ⟨li ++ t, by rw [ht, String.append_assoc]⟩
            have hlastC : ∀ x,
                (expandBlocksList ix (nm :: v) (ind ++ li) (b :: bs)).getLast? = some x →
                ∃ t, x = ind ++ t := by
              intro x hx
              obtain ⟨t, ht⟩ := ihc.2.1 x hx
              exact ⟨li ++ t, by rw [ht, String.append_assoc]⟩
            have hneC : expandBlocksList ix (nm :: v) (ind ++ li) (b :: bs) ≠ [] :=
              ihc.2.2 (by simp)
            by_cases htr : tr = ""
            · rw [if_pos htr]
              have a := indentAssemble ind _ _ hmemC hlastC hneC ihr.1 ihr.2.1
              exact ⟨a.1, a.2.1, fun _ => a.2.2⟩
            · rw [if_neg htr]
              have hA := appendToLast_indent ind tr _ hmemC hlastC
              have hneA := appendToLast_ne_nil _ tr hneC
              have a := indentAssemble ind _ _ hA.1 hA.2 hneA ihr.1 ihr.2.1
              exact ⟨a.1, a.2.1, fun _ => a.2.2⟩
termination_by ls => (freeCount ix v, 0, ls.length)
decreasing_by
  all_goals simp_wf
  all_goals first
    | (apply Prod.Lex.right; apply Prod.Lex.right; omega)
    | (apply Prod.Lex.right; apply Prod.Lex.left; omega)
    | (apply Prod.Lex.left
       exact freeCount_lt _ _ _ (by rw [hlook]; rfl) hv)

/-- Indentation preservation of the per-referenced-block loop, with the
same three components as `expandLines_indent`. -/
theorem expandBlocksList_indent (ix : Index) (v : List String) (ind : String) :
    ∀ bs : List SourceBlock,
      (∀ l ∈ expandBlocksList ix v ind bs, l = "" ∨ ∃ t, l = ind ++ t) ∧
      (∀ x, (expandBlocksList ix v ind bs).getLast? = some x → ∃ t, x = ind ++ t) ∧
      (bs ≠ [] → expandBlocksList ix v ind bs ≠ [])
  | [] => by
    rw [expandBlocksList_nil]
    exact ⟨by simp, by simp, fun h => absurd rfl h⟩
  | [b] => by
    rw [expandBlocksList_single]
    have ih := expandLines_indent ix v ind (splitNl b.content)
    exact ⟨ih.1, ih.2.1, fun _ => ih.2.2 (splitNl_ne_nil b.content)⟩
  | b :: b2 :: bs => by
    rw [expandBlocksList_cons]
    have ih1 := expandLines_indent ix v ind (splitNl b.content)
    have ih2 := expandBlocksList_indent ix v ind (b2 :: bs)
    have hne2 : expandBlocksList ix v ind (b2 :: bs) ≠ [] := ih2.2.2 (by simp)
    have h2m : ∀ l ∈ ("" : String) :: expandBlocksList ix v ind (b2 :: bs),
        l = "" ∨ ∃ t, l = ind ++ t := by
      intro l hl
      rcases List.mem_cons.mp hl with h | h
      · exact Or.inl h
      · exact ih2.1 l h
    have h2l : ∀ x, (("" : String) :: expandBlocksList ix v ind (b2 :: bs)).getLast? = some x →
        ∃ t, x = ind ++ t := by
      intro x hx
      rw [getLast?_cons_of_ne _ _ hne2] at hx
      exact ih2.2.1 x hx
    rw [List.append_assoc, List.singleton_append]
    have a := indentAssemble ind _ _ ih1.1 ih1.2.1
      (ih1.2.2 (splitNl_ne_nil b.content)) h2m h2l
    exact ⟨a.1, a.2.1, fun _ => a.2.2⟩
termination_by bs => (freeCount ix v, 1, bs.length)
decreasing_by
  all_goals simp_wf
  all_goals first
    | (apply Prod.Lex.right; apply Prod.Lex.right; omega)
    | (apply Prod.Lex.right; apply Prod.Lex.left; omega)
end

/-! ## Lookup lemmas for argument dictionaries -/

theorem getArg_setArg (a : Args) (k k' : String) (v : Val) :
    getArg (setArg a k' v) k = if k' == k then some v else getArg a k := by
  induction a with
  | nil =>
    by_cases h : (k' == k) = true <;> simp [setArg, getArg, h]
  | cons p rest ih =>
    obtain ⟨a1, w⟩ := p
    by_cases h1 : (a1 == k') = true
    · have ha : a1 = k' := eq_of_beq h1
      subst ha
      by_cases h2 : (a1 == k) = true
      · simp [setArg, getArg, h2]
      · have h2' : (a1 == k) = false := by simpa using h2
        simp [setArg, getArg, h2']
    · have h1' : (a1 == k') = false := by simpa using h1
      by_cases h2 : (a1 == k) = true
      · have ha : a1 = k := eq_of_beq h2
        subst ha
        have hk : (k' == a1) = false := by
          apply beq_eq_false_iff_ne.mpr
          intro he
          subst he
          simp at h1'
        simp [setArg, getArg, h1', h2, hk]
      · have h2' : (a1 == k) = false := by simpa using h2
        simp [setArg, getArg, h1', h2', ih]

theorem getArg_setArg_self (a : Args) (k : String) (v : Val) :
    getArg (setArg a k v) k = some v := by
  rw [getArg_setArg]
  simp

/-- Uniqueness of keys in an argument dictionary. Every dictionary the
embedded code builds has unique keys (they model JS objects, whose keys
are unique by nature): `setArg` preserves the property and every
dictionary is built from `[]` by `setArg`. -/
def keysUniq : Args → Bool
  | [] => true
  | (k, _) :: rest => !(rest.any (fun p => p.1 == k)) && keysUniq rest

theorem getArg_none_of_any_false (rest : Args) (k : String)
    (h : rest.any (fun p => p.1 == k) = false) : getArg rest k = none := by
  induction rest with
  | nil => rfl
  | cons p r ih =>
    simp only [List.any_cons, Bool.or_eq_false_iff] at h
    obtain ⟨pk, pv⟩ := p
    simp only [getArg, h.1, Bool.false_eq_true, if_false]
    exact ih h.2

theorem getArg_mergeArgs (a b : Args) (k : String) (hb : keysUniq b = true) :
    getArg (mergeArgs a b) k =
      match getArg b k with
      | some v => some v
      | none => getArg a k := by
  induction b generalizing a with
  | nil => simp [mergeArgs, getArg]
  | cons p rest ih =>
    obtain ⟨k1, v1⟩ := p
    simp only [keysUniq, Bool.and_eq_true, Bool.not_eq_true'] at hb
    have hstep : mergeArgs a ((k1, v1) :: rest) = mergeArgs (setArg a k1 v1) rest := rfl
    rw [hstep, ih _ hb.2]
    by_cases h : (k1 == k) = true
    · have hk : k1 = k := eq_of_beq h
      subst hk
      rw [getArg_none_of_any_false rest k1 hb.1]
      simp [getArg, getArg_setArg]
    · have h' : (k1 == k) = false := by simpa using h
      simp [getArg, h', getArg_setArg]

/-! ## Lemmas about first lines and joins -/

theorem takeWhile_all (p : Char → Bool) (l : List Char) (h : l.all p = true) :
    l.takeWhile p = l := by
  induction l with
  | nil => rfl
  | cons c rest ih =>
    simp only [List.all_cons, Bool.and_eq_true] at h
    simp [List.takeWhile_cons, h.1, ih h.2]

theorem takeWhile_stops (p : Char → Bool) (a : List Char) (c : Char) (t : List Char)
    (ha : a.all p = true) (hc : p c = false) :
    (a ++ c :: t).takeWhile p = a := by
  induction a with
  | nil => simp [List.takeWhile_cons, hc]
  | cons x xs ih =>
    simp only [List.all_cons, Bool.and_eq_true] at ha
    simp [List.takeWhile_cons, ha.1, ih ha.2]

theorem firstLineOf_join (sh : String) (rest : List String)
    (hnl : sh.toList.all (fun c => c != '\n') = true) :
    firstLineOf (jsJoin ("\n") (sh :: rest)) = sh := by
  cases rest with
  | nil =>
    show firstLineOf sh = sh
    unfold firstLineOf
    rw [takeWhile_all _ _ hnl, strMk_toList]
  | cons r rs =>
    show firstLineOf (sh ++ ("\n") ++ jsJoin ("\n") (r :: rs)) = sh
    unfold firstLineOf
    have htl : (sh ++ ("\n") ++ jsJoin ("\n") (r :: rs)).toList =
        sh.toList ++ '\n' :: (jsJoin ("\n") (r :: rs)).toList := by
      simp [strToList_append]
    rw [htl, takeWhile_stops _ _ _ _ hnl (by decide), strMk_toList]

/-! ## Lemmas about the shebang lift and block mutation -/

theorem zip_self_eq {α : Type} : ∀ l : List α, ∀ p ∈ l.zip l, p.1 = p.2
  | [], _, h => absurd h (by simp)
  | x :: rest, p, h => by
    rcases List.mem_cons.mp (by simpa [List.zip_cons_cons] using h) with h1 | h1
    · subst h1
      rfl
    · exact zip_self_eq rest p h1

theorem liftShebang_fst_eq (blocks : List SourceBlock) :
    ∀ p ∈ ((liftShebang blocks).2.zip blocks),
      p.1 = p.2 ∨
      p.1 = { p.2 with
        content := jsDropStr p.2.content
          (((splitNl p.2.content).headD ("")).toList.length + 1) } := by
  induction blocks with
  | nil => simp [liftShebang]
  | cons b bs ih =>
    by_cases h1 : truthyVal (getArg b.headerArgs ("shebang")) = true
    · intro p hp
      simp only [liftShebang, h1, if_true] at hp
      exact Or.inl (zip_self_eq (b :: bs) p hp)
    · have h1' : truthyVal (getArg b.headerArgs ("shebang")) = false := by simpa using h1
      by_cases h2 : (((splitNl b.content).headD ("") != "") &&
          jsStarts ((splitNl b.content).headD ("")) ("#!")) = true
      · intro p hp
        simp only [liftShebang, h1', Bool.false_eq_true, if_false, h2, if_true,
          List.zip_cons_cons] at hp
        rcases List.mem_cons.mp hp with hh | hh
        · subst hh
          exact Or.inr rfl
        · exact Or.inl (zip_self_eq bs p hh)
      · have h2' : (((splitNl b.content).headD ("") != "") &&
            jsStarts ((splitNl b.content).headD ("")) ("#!")) = false := by simpa using h2
        intro p hp
        simp only [liftShebang, h1', Bool.false_eq_true, if_false, h2',
          List.zip_cons_cons] at hp
        rcases List.mem_cons.mp hp with hh | hh
        · subst hh
          exact Or.inl rfl
        · exact ih p hh

theorem generateContent_snd (blocks : List SourceBlock) (index : Index) (tp cwd : String) :
    (generateContent blocks index tp cwd).2 = (liftShebang blocks).2 := rfl

/-- The first line of a generated target is the shebang found by the
block scan of `liftShebang`, whenever that scan finds one. -/
theorem generateContent_shebang_first (blocks : List SourceBlock) (index : Index)
    (tp cwd sh : String) (hsh : (liftShebang blocks).1 = some sh)
    (hnl : sh.toList.all (fun c => c != '\n') = true) :
    firstLineOf (generateContent blocks index tp cwd).1 = sh := by
  unfold generateContent
  simp only [hsh]
  rw [List.singleton_append]
  exact firstLineOf_join sh _ hnl

/-! ## Inert lines of the scanner -/

theorem scanLine_inert (sp : String) (props : FileProps) (st : ScanState) (i : Nat)
    (line : String) (hb : st.inBlock = false) (hline : jsStarts line ("#+") = false) :
    scanLine sp props st i line = st := by
  by_cases hex : st.inExampleBlock = true
  · simp [scanLine, hline, hb, hex]
  · have hex' : st.inExampleBlock = false := by simpa using hex
    simp [scanLine, hline, hb, hex']

theorem scanLines_inert (sp : String) (props : FileProps) :
    ∀ prose : List String, ∀ (i : Nat) (st : ScanState) (rest : List String),
      (∀ l ∈ prose, jsStarts l ("#+") = false) → st.inBlock = false →
      scanLines sp props i st (prose ++ rest) =
        scanLines sp props (i + prose.length) st rest
  | [], i, st, rest, _, _ => by simp [scanLines]
  | p :: ps, i, st, rest, hp, hb => by
    have hstep : scanLine sp props st i p = st :=
      scanLine_inert sp props st i p hb (hp p (by simp))
    have hps : ∀ l ∈ ps, jsStarts l ("#+") = false := by
      intro l hl
      exact hp l (List.mem_cons_of_mem p hl)
    show scanLines sp props (i + 1) (scanLine sp props st i p) (ps ++ rest) =
      scanLines sp props (i + (p :: ps).length) st rest
    rw [hstep, scanLines_inert sp props ps (i + 1) st rest hps hb]
    congr 1
    simp
    omega

/-! ## Invariant of the target grouping -/

theorem targetsAdd_mem (P : SourceBlock → Prop) (path : String) (b : SourceBlock)
    (hb : P b) :
    ∀ acc : List (String × List SourceBlock),
      (∀ t ∈ acc, ∀ x ∈ t.2, P x) →
      ∀ t ∈ targetsAdd acc path b, ∀ x ∈ t.2, P x
  | [], _ => by
    intro t ht x hx
    simp only [targetsAdd, List.mem_singleton] at ht
    rw [ht] at hx
    simp only [List.mem_singleton] at hx
    rw [hx]
    exact hb
  | p :: rest, hacc => by
    intro t ht x hx
    by_cases h : (p.1 == path) = true
    · simp only [targetsAdd, h, if_true] at ht
      rcases List.mem_cons.mp ht with h1 | h1
      · rw [h1] at hx
        rcases List.mem_append.mp hx with h2 | h2
        · exact hacc p (by simp) x h2
        · simp only [List.mem_singleton] at h2
          rw [h2]
          exact hb
      · exact hacc t (List.mem_cons_of_mem p h1) x hx
    · have h' : (p.1 == path) = false := by simpa using h
      simp only [targetsAdd, h', Bool.false_eq_true, if_false] at ht
      rcases List.mem_cons.mp ht with h1 | h1
      · rw [h1] at hx
        exact hacc p (by simp) x hx
      · have hrest : ∀ u ∈ rest, ∀ y ∈ u.2, P y := by
          intro u hu y hy
          exact hacc u (List.mem_cons_of_mem p hu) y hy
        exact targetsAdd_mem P path b hb rest hrest t h1 x hx

theorem foldl_targets_inv (P : SourceBlock → Prop)
    (f : List (String × List SourceBlock) → SourceBlock → List (String × List SourceBlock))
    (hf : ∀ acc b, f acc b = acc ∨ ∃ path, f acc b = targetsAdd acc path b ∧ P b) :
    ∀ (blocks : List SourceBlock) (acc : List (String × List SourceBlock)),
      (∀ t ∈ acc, ∀ x ∈ t.2, P x) →
      ∀ t ∈ List.foldl f acc blocks, ∀ x ∈ t.2, P x
  | [], acc, hacc => by simpa using hacc
  | b :: rest, acc, hacc => by
    simp only [List.foldl_cons]
    apply foldl_targets_inv P f hf rest
    rcases hf acc b with h | ⟨path, heq, hPb⟩
    · rw [h]
      exact hacc
    · rw [heq]
      exact targetsAdd_mem P path b hPb acc hacc

/-! ## Claim C3 -/

/-- C3: for every reference index — including ones whose reference graph is
cyclic — expansion terminates (the expander `expandLines` /
`expandBlocksList` is a total function, its termination proved by the
`freeCount` measure at its definition); and a reference line whose name is
already on the active expansion stack produces exactly one output line,
consisting of the total indent, the text
`/* ERROR: Circular reference to NAME */`, and the line's trailing text,
after which expansion of the remaining lines continues (the run does not
abort). -/
theorem c3_cycle_marker (ix : Index) (v : List String) (ind li nm tr : String)
    (rest : List String)
    (hli : li.toList.all wsChar = true)
    (hnm : nm.toList ≠ [])
    (hgt : nm.toList.all (fun c => c != '>') = true)
    (hv : memB nm v = true) :
    expandLines ix v ind ((li ++ ("<<") ++ nm ++ (">>") ++ tr) :: rest) =
      (ind ++ li ++ ("/* ERROR: Circular reference to ") ++ nm ++ (" */") ++ tr)
        :: expandLines ix v ind rest :=
  expandLines_cycle ix v ind _ li nm tr rest (parseRefLine_mk li nm tr hli hnm hgt) hv

/-- Fixture for C3: a block whose body references its own name, giving a
genuinely cyclic reference graph. -/
def c3blk : SourceBlock :=
  { name := some ("a"), language := "ts", content := "<<a>>", headerArgs := [],
    startLine := 0, contentStartLine := 1, endLine := 2, sourcePath := "f.org" }

/-- Index of the cyclic fixture. -/
def c3ix : Index := buildBlockIndex [c3blk]

theorem c3_cycle_marker_witness :
    expandLines c3ix [("a")] ("  ") [(("  ") ++ ("<<") ++ ("a") ++ (">>") ++ (" tail"))] =
      [("    /* ERROR: Circular reference to a */ tail")] := by
  rw [c3_cycle_marker c3ix [("a")] ("  ") ("  ") ("a") (" tail") []
    (by decide) (by decide) (by decide) (by decide)]
  rw [expandLines_nil]
  decide

/-! ## Claim C9 -/

/-- C9: for every reference line whose name is absent from the index (or
maps to an empty block list), the expander emits the literal `<<NAME>>`
token prefixed with the total indent and followed by the line's trailing
text; an unresolved reference is not an error and expansion of the
remaining lines continues. -/
theorem c9_unresolved_literal (ix : Index) (v : List String) (ind li nm tr : String)
    (rest : List String)
    (hli : li.toList.all wsChar = true)
    (hnm : nm.toList ≠ [])
    (hgt : nm.toList.all (fun c => c != '>') = true)
    (hv : memB nm v = false)
    (hl : lookupIndex ix nm = none ∨ lookupIndex ix nm = some []) :
    expandLines ix v ind ((li ++ ("<<") ++ nm ++ (">>") ++ tr) :: rest) =
      (ind ++ li ++ ("<<") ++ nm ++ (">>") ++ tr) :: expandLines ix v ind rest :=
  expandLines_unresolved ix v ind _ li nm tr rest (parseRefLine_mk li nm tr hli hnm hgt) hv hl

theorem c9_unresolved_literal_witness :
    expandLines ([]) [] ("  ") [(("") ++ ("<<") ++ ("missing") ++ (">>") ++ (" t"))] =
      [("  <<missing>> t")] := by
  rw [c9_unresolved_literal ([]) [] ("  ") ("") ("missing") (" t") []
    (by decide) (by decide) (by decide) (by decide) (Or.inl (by decide))]
  rw [expandLines_nil]
  decide

/-! ## Claim C2 -/

/-- Fixtures for C2: two blocks sharing the name `x` (fan-in). -/
def c2blkA : SourceBlock :=
  { name := some ("x"), language := "ts", content := "a", headerArgs := [],
    startLine := 0, contentStartLine := 1, endLine := 2, sourcePath := "f.org" }

/-- Second fan-in block of the C2 fixture. -/
def c2blkB : SourceBlock :=
  { name := some ("x"), language := "ts", content := "b", headerArgs := [],
    startLine := 3, contentStartLine := 4, endLine := 5, sourcePath := "f.org" }

/-- Index of the C2 fixture. -/
def c2ix : Index := buildBlockIndex [c2blkA, c2blkB]

/-- C2 as stated is false: expanding the reference `  <<x>>` (indented by
two spaces) against an index where `x` names two blocks yields the lines
`  a`, `` and `  b`; the middle line — the separator the expander inserts
between multiple blocks of the same name — is empty and does not begin
with the two spaces of the reference site. -/
theorem c2_indent_counterexample :
    expandLines c2ix [] ("") [("  <<x>>")] = [("  a"), (""), ("  b")] ∧
    isPrefB (String.toList ("  ")) (String.toList ("")) = false := by
  constructor
  · have h1 : parseRefLine ("  <<x>>") = some (("  "), ("x"), ("")) := by decide
    have hlk : lookupIndex c2ix ("x") = some [c2blkA, c2blkB] := by decide
    rw [expandLines_ref c2ix [] ("") ("  <<x>>") ("  ") ("x") ("") [] c2blkA [c2blkB]
      h1 (by decide) hlk]
    rw [if_pos rfl]
    rw [expandBlocksList_cons, expandBlocksList_single]
    rw [show splitNl c2blkA.content = [("a")] from by decide]
    rw [show splitNl c2blkB.content = [("b")] from by decide]
    rw [expandLines_plain c2ix [("x")] (("") ++ ("  ")) ("a") [] (by decide)]
    rw [expandLines_plain c2ix [("x")] (("") ++ ("  ")) ("b") [] (by decide)]
    rw [expandLines_nil, expandLines_nil]
    decide
  · decide

/-- C2 (amended): for every reference index, visited stack, accumulated
outer indent and line list, every line the expander emits either carries
the accumulated indent as a prefix or is one of the empty separator lines
inserted between multiple blocks sharing a referenced name; the last
emitted line always carries the indent. Nested indentation composes
additively because a reference site indented by `li` under outer indent
`ind` expands its referenced blocks under the accumulated indent
`ind ++ li` (see `expandLines_ref`), to which this theorem applies in
turn. -/
theorem c2_indent_amended (ix : Index) (v : List String) (ind : String)
    (ls : List String) :
    (∀ l ∈ expandLines ix v ind ls, l = "" ∨ ∃ t, l = ind ++ t) ∧
    (∀ x, (expandLines ix v ind ls).getLast? = some x → ∃ t, x = ind ++ t) :=
  ⟨(expandLines_indent ix v ind ls).1, (expandLines_indent ix v ind ls).2.1⟩

theorem c2_indent_amended_witness :
    ("  zz" : String) = "" ∨ ∃ t, ("  zz" : String) = ("  ") ++ t := by
  have hmem : ("  zz" : String) ∈ expandLines ([]) [] ("  ") [("zz")] := by
    rw [expandLines_plain ([]) [] ("  ") ("zz") [] (by decide), expandLines_nil]
    decide
  exact (c2_indent_amended ([]) [] ("  ") [("zz")]).1 ("  zz") hmem

/-! ## Claim C7 -/

/-- C7 as stated is false: the double-quoted argument `:key "yes"` is NOT
normalised to a boolean — the flag regex requires the bare word right
after the whitespace, and the opening quote blocks it — so the key is
bound to the string `yes`, which is distinguishable from the flag
`:key yes` (bound to boolean true). -/
theorem c7_quoted_counterexample :
    getArg (parseHeaderArgs ("#+begin_src ts :key \"yes\"")).2 ("key") =
      some (Val.str ("yes")) ∧
    getArg (parseHeaderArgs ("#+begin_src ts :key yes")).2 ("key") =
      some (Val.bool true) := by
  constructor <;> decide

/-! Symbolic-evaluation lemmas for the two scan passes of the header
parser, used to settle the amended C7 for every fence language and every
key rather than at single instances. -/

/-- A case-insensitive literal consumes itself. -/
theorem ciPref_self_append (p rest : List Char) : ciPref p (p ++ rest) = some rest := by
  induction p with
  | nil => rfl
  | cons c cs ih => simp [ciPref, ih]

/-- The value scan stops on an exhausted argument string, whatever fuel
is left. -/
theorem scanArgsA_nil (f : Nat) (args : Args) : scanArgsA f ([]) args = args := by
  cases f <;> rfl

/-- The flag scan stops on an exhausted argument string, whatever fuel
is left. -/
theorem scanFlagsA_nil (f : Nat) (args : Args) : scanFlagsA f ([]) args = args := by
  cases f <;> rfl

/-- The flag regex can only match at a `:`. -/
theorem matchFlagAt_not_colon (c : Char) (rest : List Char) (h : c ≠ ':') :
    matchFlagAt (c :: rest) = none := by
  unfold matchFlagAt
  split
  · rename_i r heq
    injection heq with h1 _
    exact absurd h1 h
  · rfl

/-- A key character is never a colon. -/
theorem keyChar_ne_colon (c : Char) (h : keyChar c = true) : (c != ':') = true := by
  by_cases hc : c = ':'
  · rw [hc] at h
    exact absurd h (by decide)
  · simpa [bne_iff_ne] using hc

/-- Over a colon-free remainder the flag scan matches nothing. -/
theorem scanFlagsA_no_colon (f : Nat) (cs : List Char) (args : Args)
    (h : cs.all (fun c => c != ':') = true) : scanFlagsA f cs args = args := by
  induction f generalizing cs args with
  | zero => rfl
  | succ n ih =>
    cases cs with
    | nil => rfl
    | cons c rest =>
      simp only [List.all_cons, Bool.and_eq_true] at h
      have hc : c ≠ ':' := by simpa [bne_iff_ne] using h.1
      simp only [scanFlagsA]
      rw [matchFlagAt_not_colon c rest hc]
      exact ih rest args h.2

/-- A whitespace run of exactly one space before a non-whitespace
character. -/
theorem spanB_space_cons (c : Char) (t : List Char) (hc : wsChar c = false) :
    spanB wsChar (' ' :: c :: t) = ([' '], c :: t) := by
  have hsp : wsChar ' ' = true := by decide
  simp [spanB, hsp, hc]

/-- The value regex at `:key value` with a one-space separator and the
value running to the end of the string: it captures the key and the raw
value. -/
theorem matchArgAt_shape (kC vC : List Char) (hk1 : kC ≠ []) (hk2 : kC.all keyChar = true)
    (hv1 : vC ≠ []) (hv2 : vC.all (fun c => !(wsChar c) && c != ':') = true)
    (hsp : spanB wsChar (' ' :: vC) = ([' '], vC)) :
    matchArgAt (':' :: (kC ++ ' ' :: vC)) = some (kC, vC, []) := by
  have h1 : spanB keyChar (kC ++ ' ' :: vC) = (kC, ' ' :: vC) :=
    spanB_stops keyChar kC ' ' vC hk2 (by decide)
  have h3 : spanB (fun c => !(wsChar c) && c != ':') vC = (vC, []) := spanB_all _ vC hv2
  simp [matchArgAt, h1, hsp, h3, List.isEmpty_iff, hk1, hv1]

/-- The flag regex at `:key value` with a one-space separator: the result
is whatever the boolean alternation makes of the value characters. -/
theorem matchFlagAt_shape (kC vC : List Char) (hk1 : kC ≠ []) (hk2 : kC.all keyChar = true)
    (hsp : spanB wsChar (' ' :: vC) = ([' '], vC)) :
    matchFlagAt (':' :: (kC ++ ' ' :: vC)) =
      (match matchFlagValue vC with
       | some (w, rest') => some (kC, w, rest')
       | none => none) := by
  have h1 : spanB keyChar (kC ++ ' ' :: vC) = (kC, ' ' :: vC) :=
    spanB_stops keyChar kC ' ' vC hk2 (by decide)
  simp [matchFlagAt, h1, hsp, List.isEmpty_iff, hk1]

/-- One full-string match reduces the value scan to a single `setArg`. -/
theorem scanArgsA_single (n : Nat) (kC vC : List Char) (args : Args)
    (h : matchArgAt (':' :: (kC ++ ' ' :: vC)) = some (kC, vC, [])) :
    scanArgsA (n + 1) (':' :: (kC ++ ' ' :: vC)) args =
      setArg args (String.mk kC) (Val.str (String.mk (stripQuotes vC))) := by
  simp only [scanArgsA]
  rw [h]
  exact scanArgsA_nil n _

/-- One full-string match reduces the flag scan to a single boolean
`setArg`. -/
theorem scanFlagsA_single (n : Nat) (kC vC wM : List Char) (args : Args)
    (h : matchFlagAt (':' :: (kC ++ ' ' :: vC)) = some (kC, wM, [])) :
    scanFlagsA (n + 1) (':' :: (kC ++ ' ' :: vC)) args =
      setArg args (String.mk kC)
        (Val.bool (String.mk (wM.map Char.toLower) == ("yes") ||
          String.mk (wM.map Char.toLower) == ("t"))) := by
  simp only [scanFlagsA]
  rw [h]
  exact scanFlagsA_nil n _

/-- A position where the flag regex fails advances the flag scan by one
character. -/
theorem scanFlagsA_step_none (n : Nat) (c : Char) (rest : List Char) (args : Args)
    (h : matchFlagAt (c :: rest) = none) :
    scanFlagsA (n + 1) (c :: rest) args = scanFlagsA n rest args := by
  simp only [scanFlagsA]
  rw [h]

/-- A list whose last element is not whitespace loses nothing to a
reversed whitespace strip. -/
theorem dropWhile_rev_eq (l : List Char)
    (hl : (match l.getLast? with
           | none => true
           | some c => !(Char.isWhitespace c)) = true) :
    l.reverse.dropWhile (fun c => c.isWhitespace) = l.reverse := by
  cases hrev : l.reverse with
  | nil => rfl
  | cons r rr =>
    have hl2 : l = (r :: rr).reverse := by rw [← hrev, List.reverse_reverse]
    have hr : l.getLast? = some r := by
      rw [hl2, List.reverse_cons]
      rw [List.getLast?_append_of_ne_nil rr.reverse (by simp : ([r] : List Char) ≠ [])]
      simp
    rw [hr] at hl
    have hr2 : Char.isWhitespace r = false := by simpa using hl
    simp [List.dropWhile_cons, hr2]

/-- `trim` of a string of the shape space-then-content whose content
neither starts nor ends in whitespace drops exactly the leading space. -/
theorem trimChars_space (M : List Char)
    (hh : (match M with
           | [] => true
           | c :: _ => !(Char.isWhitespace c)) = true)
    (hl : (match M.getLast? with
           | none => true
           | some c => !(Char.isWhitespace c)) = true) :
    trimChars (' ' :: M) = M := by
  unfold trimChars
  have h1 : (' ' :: M).dropWhile (fun c => c.isWhitespace) = M := by
    cases M with
    | nil => decide
    | cons c t =>
      have hc : Char.isWhitespace c = false := by simpa using hh
      have hsp : Char.isWhitespace ' ' = true := by decide
      simp [List.dropWhile_cons, hsp, hc]
  rw [h1, dropWhile_rev_eq M hl, List.reverse_reverse]

/-- The fence regex on a line assembled from a language token and a
remainder that begins with a space: the language and the remainder
(space included) are the two groups. -/
theorem matchBeginSrcLine_shape (langC rest : List Char)
    (h1 : langC ≠ []) (h2 : langC.all (fun c => !(wsChar c)) = true) :
    matchBeginSrcLine (String.toList ("#+begin_src") ++ ' ' :: (langC ++ ' ' :: rest)) =
      some (langC, ' ' :: rest) := by
  obtain ⟨c, t, hct⟩ : ∃ c t, langC = c :: t := by
    cases langC with
    | nil => exact absurd rfl h1
    | cons c t => exact ⟨c, t, rfl⟩
  have hc : wsChar c = false := by
    rw [hct] at h2
    simp only [List.all_cons, Bool.and_eq_true] at h2
    simpa using h2.1
  have hs1 : spanB wsChar (' ' :: (langC ++ ' ' :: rest)) = ([' '], langC ++ ' ' :: rest) := by
    rw [hct]
    exact spanB_space_cons c (t ++ ' ' :: rest) hc
  have hs2 : spanB (fun c => !(wsChar c)) (langC ++ ' ' :: rest) = (langC, ' ' :: rest) :=
    spanB_stops _ langC ' ' rest h2 (by decide)
  unfold matchBeginSrcLine
  rw [ciPref_self_append]
  simp [hs1, hs2, List.isEmpty_iff, h1]

/-- Full run of `parseHeaderArgs` on a fence line with one argument whose
unquoted value token is matched by the flag alternation over its whole
length: the value pass binds the key to the raw string, then the flag
pass overwrites it with the normalised boolean — the boolean form wins. -/
theorem c7_core_bool (lang k w : String) (bv : Bool)
    (hl1 : lang.toList ≠ []) (hl2 : lang.toList.all (fun c => !(wsChar c)) = true)
    (hk1 : k.toList ≠ []) (hk2 : k.toList.all keyChar = true)
    (hw1 : w.toList ≠ [])
    (hw2 : w.toList.all (fun c => !(wsChar c) && c != ':') = true)
    (hwl : (match w.toList.getLast? with
            | none => true
            | some c => !(Char.isWhitespace c)) = true)
    (hq : stripQuotes w.toList = w.toList)
    (hfl : matchFlagValue w.toList = some (w.toList, []))
    (hbv : (String.mk (w.toList.map Char.toLower) == ("yes") ||
            String.mk (w.toList.map Char.toLower) == ("t")) = bv) :
    getArg (parseHeaderArgs (("#+begin_src ") ++ lang ++ (" :") ++ k ++ (" ") ++ w)).2 k =
      some (Val.bool bv) := by
  obtain ⟨c, t, hct⟩ : ∃ c t, w.toList = c :: t := by
    cases hwt : w.toList with
    | nil => exact absurd hwt hw1
    | cons c t => exact ⟨c, t, rfl⟩
  have hch : wsChar c = false := by
    rw [hct] at hw2
    simp only [List.all_cons, Bool.and_eq_true] at hw2
    simpa using hw2.1.1
  have hsp2 : spanB wsChar (' ' :: w.toList) = ([' '], w.toList) := by
    rw [hct]
    exact spanB_space_cons c t hch
  have hargA : matchArgAt (':' :: (k.toList ++ ' ' :: w.toList)) =
      some (k.toList, w.toList, []) :=
    matchArgAt_shape k.toList w.toList hk1 hk2 hw1 hw2 hsp2
  have hargF : matchFlagAt (':' :: (k.toList ++ ' ' :: w.toList)) =
      some (k.toList, w.toList, []) := by
    rw [matchFlagAt_shape k.toList w.toList hk1 hk2 hsp2, hfl]
  have hline : (("#+begin_src ") ++ lang ++ (" :") ++ k ++ (" ") ++ w).toList =
      String.toList ("#+begin_src") ++
        ' ' :: (lang.toList ++ ' ' :: (':' :: (k.toList ++ ' ' :: w.toList))) := by
    simp [strToList_append]
  have hmid : matchBeginSrcLine ((("#+begin_src ") ++ lang ++ (" :") ++ k ++ (" ") ++ w).toList) =
      some (lang.toList, ' ' :: (':' :: (k.toList ++ ' ' :: w.toList))) := by
    rw [hline]
    exact matchBeginSrcLine_shape lang.toList (':' :: (k.toList ++ ' ' :: w.toList)) hl1 hl2
  have htrim : trimChars (' ' :: (':' :: (k.toList ++ ' ' :: w.toList))) =
      ':' :: (k.toList ++ ' ' :: w.toList) := by
    apply trimChars_space
    · show (!(Char.isWhitespace ':')) = true
      decide
    · rw [getLast?_cons_of_ne ':' (k.toList ++ ' ' :: w.toList) (by simp)]
      rw [List.getLast?_append_of_ne_nil k.toList (by simp : (' ' :: w.toList) ≠ [])]
      rw [getLast?_cons_of_ne ' ' w.toList hw1]
      exact hwl
  unfold parseHeaderArgs
  rw [hmid]
  simp only []
  rw [htrim]
  rw [scanArgsA_single _ _ _ _ hargA]
  rw [hq]
  rw [scanFlagsA_single _ _ _ _ _ hargF]
  rw [hbv]
  simp only [strMk_toList]
  exact getArg_setArg_self _ _ _

/-- Full run of `parseHeaderArgs` on a fence line with the one argument
`:key "yes"`: the value pass binds the key to the quote-stripped string,
and the flag pass matches nowhere (the opening quote blocks the bare
word, and the rest of the string has no `:`), so the string survives. -/
theorem c7_core_quoted (lang k : String)
    (hl1 : lang.toList ≠ []) (hl2 : lang.toList.all (fun c => !(wsChar c)) = true)
    (hk1 : k.toList ≠ []) (hk2 : k.toList.all keyChar = true) :
    getArg (parseHeaderArgs
        (("#+begin_src ") ++ lang ++ (" :") ++ k ++ (" ") ++ ("\"yes\""))).2 k =
      some (Val.str ("yes")) := by
  have hsp2 : spanB wsChar (' ' :: String.toList ("\"yes\"")) =
      ([' '], String.toList ("\"yes\"")) := by decide
  have hargA : matchArgAt (':' :: (k.toList ++ ' ' :: String.toList ("\"yes\""))) =
      some (k.toList, String.toList ("\"yes\""), []) :=
    matchArgAt_shape k.toList (String.toList ("\"yes\"")) hk1 hk2
      (by decide) (by decide) hsp2
  have hargF : matchFlagAt (':' :: (k.toList ++ ' ' :: String.toList ("\"yes\""))) = none := by
    rw [matchFlagAt_shape k.toList (String.toList ("\"yes\"")) hk1 hk2 hsp2]
    rfl
  have hline : (("#+begin_src ") ++ lang ++ (" :") ++ k ++ (" ") ++ ("\"yes\"")).toList =
      String.toList ("#+begin_src") ++
        ' ' :: (lang.toList ++ ' ' :: (':' :: (k.toList ++ ' ' :: String.toList ("\"yes\"")))) := by
    simp [strToList_append]
  have hmid : matchBeginSrcLine
      ((("#+begin_src ") ++ lang ++ (" :") ++ k ++ (" ") ++ ("\"yes\"")).toList) =
      some (lang.toList, ' ' :: (':' :: (k.toList ++ ' ' :: String.toList ("\"yes\"")))) := by
    rw [hline]
    exact matchBeginSrcLine_shape lang.toList
      (':' :: (k.toList ++ ' ' :: String.toList ("\"yes\""))) hl1 hl2
  have htrim : trimChars (' ' :: (':' :: (k.toList ++ ' ' :: String.toList ("\"yes\"")))) =
      ':' :: (k.toList ++ ' ' :: String.toList ("\"yes\"")) := by
    apply trimChars_space
    · show (!(Char.isWhitespace ':')) = true
      decide
    · rw [getLast?_cons_of_ne ':' (k.toList ++ ' ' :: String.toList ("\"yes\"")) (by simp)]
      rw [List.getLast?_append_of_ne_nil k.toList
        (by simp : (' ' :: String.toList ("\"yes\"")) ≠ [])]
      decide
  have hnc : (k.toList ++ ' ' :: String.toList ("\"yes\"")).all (fun c => c != ':') = true := by
    rw [List.all_append]
    have hka : k.toList.all (fun c => c != ':') = true := by
      rw [List.all_eq_true] at hk2 ⊢
      intro x hx
      exact keyChar_ne_colon x (hk2 x hx)
    rw [hka]
    decide
  unfold parseHeaderArgs
  rw [hmid]
  simp only []
  rw [htrim]
  rw [scanArgsA_single _ _ _ _ hargA]
  rw [show String.mk (stripQuotes (String.toList ("\"yes\""))) = ("yes") from by decide]
  rw [scanFlagsA_step_none _ _ _ _ hargF]
  rw [scanFlagsA_no_colon _ _ _ hnc]
  simp only [strMk_toList]
  exact getArg_setArg_self _ _ _

/-- C7 (amended): for every fence language (a non-empty whitespace-free
token) and every key (a non-empty token of `[\w-]` characters), an
unquoted boolean-ish value token (`yes`, `no`, `t`, `nil`) is matched by
both passes of the header parser and the boolean pass wins: the key ends
up bound to the boolean `true` for `yes`/`t` and `false` for `no`/`nil`.
But the double-quoted `"yes"` is NOT matched by the flag pass — the
opening quote blocks the bare word — so such a key stays bound to the
string `yes`, and a quoted boolean word is distinguishable from the
flag. -/
theorem c7_boolean_wins_amended :
    (∀ lang k w : String,
      lang.toList ≠ [] → lang.toList.all (fun c => !(wsChar c)) = true →
      k.toList ≠ [] → k.toList.all keyChar = true →
      (w = ("yes") ∨ w = ("no") ∨ w = ("t") ∨ w = ("nil")) →
      getArg (parseHeaderArgs (("#+begin_src ") ++ lang ++ (" :") ++ k ++ (" ") ++ w)).2 k =
        some (Val.bool (w == ("yes") || w == ("t")))) ∧
    (∀ lang k : String,
      lang.toList ≠ [] → lang.toList.all (fun c => !(wsChar c)) = true →
      k.toList ≠ [] → k.toList.all keyChar = true →
      getArg (parseHeaderArgs
          (("#+begin_src ") ++ lang ++ (" :") ++ k ++ (" ") ++ ("\"yes\""))).2 k =
        some (Val.str ("yes"))) := by
  constructor
  · intro lang k w hl1 hl2 hk1 hk2 hw
    rcases hw with h | h | h | h <;> rw [h]
    · rw [show ((("yes" : String) == ("yes") || ("yes" : String) == ("t"))) = true from by decide]
      exact c7_core_bool lang k ("yes") true hl1 hl2 hk1 hk2
        (by decide) (by decide) (by decide) (by decide) (by decide) (by decide)
    · rw [show ((("no" : String) == ("yes") || ("no" : String) == ("t"))) = false from by decide]
      exact c7_core_bool lang k ("no") false hl1 hl2 hk1 hk2
        (by decide) (by decide) (by decide) (by decide) (by decide) (by decide)
    · rw [show ((("t" : String) == ("yes") || ("t" : String) == ("t"))) = true from by decide]
      exact c7_core_bool lang k ("t") true hl1 hl2 hk1 hk2
        (by decide) (by decide) (by decide) (by decide) (by decide) (by decide)
    · rw [show ((("nil" : String) == ("yes") || ("nil" : String) == ("t"))) = false from by decide]
      exact c7_core_bool lang k ("nil") false hl1 hl2 hk1 hk2
        (by decide) (by decide) (by decide) (by decide) (by decide) (by decide)
  · intro lang k hl1 hl2 hk1 hk2
    exact c7_core_quoted lang k hl1 hl2 hk1 hk2

theorem c7_boolean_wins_amended_witness :
    getArg (parseHeaderArgs
        (("#+begin_src ") ++ ("ts") ++ (" :") ++ ("key") ++ (" ") ++ ("yes"))).2 ("key") =
      some (Val.bool (("yes" : String) == ("yes") || ("yes" : String) == ("t"))) ∧
    getArg (parseHeaderArgs
        (("#+begin_src ") ++ ("ts") ++ (" :") ++ ("key") ++ (" ") ++ ("\"yes\""))).2 ("key") =
      some (Val.str ("yes")) :=
  ⟨c7_boolean_wins_amended.1 ("ts") ("key") ("yes")
      (by decide) (by decide) (by decide) (by decide) (Or.inl rfl),
   c7_boolean_wins_amended.2 ("ts") ("key")
      (by decide) (by decide) (by decide) (by decide)⟩

/-! ## Claim C1 -/

/-- Document of the C1 counterexample: an inherited document-global
`tangle`, and a block whose LOCAL header arguments contain the key
`noweb-ref` (bound to the falsy boolean produced by `:noweb-ref no`) and
no local `tangle` key. -/
def c1doc : String :=
  ("#+PROPERTY: header-args :tangle out.ts\n#+begin_src ts :noweb-ref no\nbody\n#+end_src")

/-- Blocks extracted from the C1 counterexample document. -/
def c1blocks : List SourceBlock :=
  extractBlocks c1doc ("/proj/f.org") (extractFileProperties c1doc)

/-- C1 as stated is false: the block-local header arguments of the
`#+begin_src ts :noweb-ref no` block contain a `noweb-ref` key and no
`tangle` key, yet the Target Assembler places the block into the target
`/proj/out.ts` — the guard tests the truthiness of the `noweb-ref` VALUE,
not the presence of the key, so the falsy value `false` lets the
inherited `tangle` apply. -/
theorem c1_noweb_ref_counterexample :
    (getArg (parseHeaderArgs ("#+begin_src ts :noweb-ref no")).2 ("noweb-ref")).isSome
      = true ∧
    getArg (parseHeaderArgs ("#+begin_src ts :noweb-ref no")).2 ("tangle") = none ∧
    c1blocks.length = 1 ∧
    c1blocks.map (fun b => getArg b.headerArgs ("tangle")) = [some (Val.str ("out.ts"))] ∧
    (groupByTarget c1blocks ("/cwd") ("/cwd")).map (fun t => t.1) = [("/proj/out.ts")] ∧
    (groupByTarget c1blocks ("/cwd") ("/cwd")).map (fun t => t.2) = [c1blocks] := by
  refine ⟨by decide, by decide, by decide, by decide, by decide, by decide⟩

theorem groupStep_cases (cwd : String) (acc : List (String × List SourceBlock))
    (b : SourceBlock) :
    groupStep cwd acc b = acc ∨
    ∃ path, groupStep cwd acc b = targetsAdd acc path b ∧
      getArg b.headerArgs ("tangle") ≠ some (Val.str ("no")) := by
  unfold groupStep
  by_cases h1 : ((truthyVal (getArg b.headerArgs ("noweb-ref")) ||
      truthyVal (getArg b.headerArgs ("nowebRef"))) &&
      !(getArg b.headerArgs ("tangle")).isSome) = true
  · left
    rw [if_pos h1]
  · rw [if_neg h1]
    cases hT : getArg b.headerArgs ("tangle") with
    | none =>
      left
      rfl
    | some tv =>
      by_cases h2 : (!(Val.truthy tv) || tv == Val.str ("no")) = true
      · left
        simp [h2]
      · have h2' : (!(Val.truthy tv) || tv == Val.str ("no")) = false := by simpa using h2
        right
        refine ⟨groupPath cwd b tv, ?_, ?_⟩
        · simp [h2']
        · intro hcon
          have hv : tv = Val.str ("no") := Option.some.inj hcon
          subst hv
          simp at h2'

theorem groupByTarget_no_tangle_no (blocks : List SourceBlock) (baseDir cwd : String) :
    ∀ t ∈ groupByTarget blocks baseDir cwd, ∀ b ∈ t.2,
      getArg b.headerArgs ("tangle") ≠ some (Val.str ("no")) := by
  exact foldl_targets_inv _ (groupStep cwd) (groupStep_cases cwd) blocks []
    (by simp)

/-- C1 (amended): replace "contain a `noweb-ref` key" by "bind
`noweb-ref`/`nowebRef` to a truthy value". First part: when the
block-local arguments bind a truthy `noweb-ref`/`nowebRef` and contain no
`tangle` key, the merged arguments of the block carry `tangle = "no"`,
regardless of any inherited `tangle`. Second part: no block whose merged
`tangle` is the string `no` is ever placed into any target by the Target
Assembler. Together: such a block appears in no Target. -/
theorem c1_noweb_ref_amended :
    (∀ (props : FileProps) (lang : String) (args : Args),
      (truthyVal (getArg args ("noweb-ref")) || truthyVal (getArg args ("nowebRef"))) = true →
      getArg args ("tangle") = none →
      getArg (mergeBlockArgs props lang args) ("tangle") = some (Val.str ("no"))) ∧
    (∀ (blocks : List SourceBlock) (baseDir cwd : String),
      ∀ t ∈ groupByTarget blocks baseDir cwd, ∀ b ∈ t.2,
        getArg b.headerArgs ("tangle") ≠ some (Val.str ("no"))) := by
  constructor
  · intro props lang args h1 h2
    unfold mergeBlockArgs
    simp only [h1, h2, Option.isSome_none, Bool.not_false, Bool.and_self, if_true]
    exact getArg_setArg_self _ _ _
  · exact groupByTarget_no_tangle_no

/-- Fixture for the C1 witness: a block whose merged `tangle` is an
explicit path. -/
def c1wblk : SourceBlock :=
  { name := none, language := "ts", content := "x", headerArgs := [(("tangle"), Val.str ("x.ts"))],
    startLine := 0, contentStartLine := 1, endLine := 2, sourcePath := "/proj/f.org" }

theorem c1_noweb_ref_amended_witness :
    getArg (mergeBlockArgs [(("*"), [(("tangle"), Val.str ("out.ts"))])] ("ts")
      [(("noweb-ref"), Val.str ("util"))]) ("tangle") = some (Val.str ("no")) ∧
    getArg c1wblk.headerArgs ("tangle") ≠ some (Val.str ("no")) := by
  constructor
  · exact c1_noweb_ref_amended.1 [(("*"), [(("tangle"), Val.str ("out.ts"))])] ("ts")
      [(("noweb-ref"), Val.str ("util"))] (by decide) (by decide)
  · exact c1_noweb_ref_amended.2 [c1wblk] ("/c") ("/c")
      (("/proj/x.ts"), [c1wblk]) (by decide) c1wblk (by decide)

/-! ## Claim C8 -/

/-- Document of the C8 counterexample: a language-scoped property whose
tag differs from the fence language only in letter case. -/
def c8doc : String :=
  ("#+PROPERTY: header-args:typescript :tangle x.ts\n#+begin_src TypeScript\nb\n#+end_src")

/-- Blocks extracted from the C8 counterexample document. -/
def c8blocks : List SourceBlock :=
  extractBlocks c8doc ("/proj/g.org") (extractFileProperties c8doc)

/-- C8 as stated is false: the property tag `typescript` and the fence
language `TypeScript` are equal under lowercasing, yet the block inherits
nothing — `fileProperties[language]` is an exact, case-sensitive JS
property lookup — and consequently the block is tangled nowhere. -/
theorem c8_case_counterexample :
    extractFileProperties c8doc = [(("typescript"), [(("tangle"), Val.str ("x.ts"))])] ∧
    c8blocks.map (fun b => b.language) = [("TypeScript")] ∧
    jsLower ("TypeScript") = jsLower ("typescript") ∧
    c8blocks.map (fun b => b.headerArgs) = [[]] ∧
    groupByTarget c8blocks ("/c") ("/c") = [] := by
  refine ⟨by decide, by decide, by decide, by decide, by decide⟩

/-- C8 (amended): the language-scoped properties applied to a block are
those under the tag that is exactly — case-sensitively — equal to the
fence language as written (`getPropsD props language`); a key absent from
the block-local arguments resolves to the language-scoped value when that
exact entry has it, else to the document-global value, and a block-local
binding always wins. (Stated for blocks without a truthy block-local
`noweb-ref`, whose `tangle` key the scanner additionally rewrites, and for
block-local dictionaries with unique keys, which is what the header parser
produces.) -/
theorem c8_case_sensitive_amended (props : FileProps) (lang : String) (args : Args)
    (k : String)
    (hnw : (truthyVal (getArg args ("noweb-ref")) ||
      truthyVal (getArg args ("nowebRef"))) = false)
    (hu : keysUniq args = true)
    (huL : keysUniq (getPropsD props lang) = true) :
    (getArg args k = none →
      getArg (mergeBlockArgs props lang args) k =
        (match getArg (getPropsD props lang) k with
         | some v => some v
         | none => getArg (getPropsD props ("*")) k)) ∧
    (∀ v, getArg args k = some v → getArg (mergeBlockArgs props lang args) k = some v) := by
  have hmerge : mergeBlockArgs props lang args =
      mergeArgs (mergeArgs (getPropsD props ("*")) (getPropsD props lang)) args := by
    unfold mergeBlockArgs
    simp [hnw]
  constructor
  · intro hnone
    rw [hmerge, getArg_mergeArgs _ _ _ hu, hnone]
    rw [getArg_mergeArgs _ _ _ huL]
  · intro v hv
    rw [hmerge, getArg_mergeArgs _ _ _ hu, hv]

theorem c8_case_sensitive_amended_witness :
    getArg (mergeBlockArgs [(("TS"), [(("tangle"), Val.str ("a.ts"))])] ("TS") [])
      ("tangle") = some (Val.str ("a.ts")) ∧
    getArg (mergeBlockArgs [(("TS"), [(("tangle"), Val.str ("a.ts"))])] ("TS")
      [(("tangle"), Val.str ("b.ts"))]) ("tangle") = some (Val.str ("b.ts")) := by
  constructor
  · have h := (c8_case_sensitive_amended [(("TS"), [(("tangle"), Val.str ("a.ts"))])]
      ("TS") [] ("tangle") (by decide) (by decide) (by decide)).1 (by decide)
    rw [h]
    decide
  · exact (c8_case_sensitive_amended [(("TS"), [(("tangle"), Val.str ("a.ts"))])]
      ("TS") [(("tangle"), Val.str ("b.ts"))] ("tangle") (by decide) (by decide)
      (by decide)).2 (Val.str ("b.ts")) (by decide)

/-! ## Claim C10 -/

/-- C10: a pending name set by a column-zero `name:` directive survives
intervening non-directive lines. First part: any line that does not start
with `#+` leaves the whole scanner state — in particular the pending name
— untouched (outside a block). Second part: a document consisting of a
`#+name: foo` directive, then arbitrarily many non-`#+` lines (prose,
blank lines, headings), then a source block, yields exactly one block and
it is named `foo`; and the pending name is consumed: the final scanner
state has no pending name. -/
theorem c10_pending_name (sp : String) (props : FileProps) :
    (∀ (st : ScanState) (i : Nat) (line : String), st.inBlock = false →
      jsStarts line ("#+") = false → scanLine sp props st i line = st) ∧
    (∀ (prose : List String) (i : Nat),
      (∀ l ∈ prose, jsStarts l ("#+") = false) →
      ((scanLines sp props i initScan
          (("#+name: foo") :: prose ++
            [("#+begin_src ts"), ("const x = 1"), ("#+end_src")])).blocks.map
        (fun b => b.name) = [some ("foo")] ∧
       (scanLines sp props i initScan
          (("#+name: foo") :: prose ++
            [("#+begin_src ts"), ("const x = 1"), ("#+end_src")])).currentName = none)) := by
  constructor
  · intro st i line hb hline
    exact scanLine_inert sp props st i line hb hline
  · intro prose i hp
    have h0 : scanLines sp props i initScan
        (("#+name: foo") :: prose ++ [("#+begin_src ts"), ("const x = 1"), ("#+end_src")]) =
        scanLines sp props (i + 1) (scanLine sp props initScan i ("#+name: foo"))
          (prose ++ [("#+begin_src ts"), ("const x = 1"), ("#+end_src")]) := rfl
    rw [h0]
    rw [scanLines_inert sp props prose (i + 1)
      (scanLine sp props initScan i ("#+name: foo"))
      [("#+begin_src ts"), ("const x = 1"), ("#+end_src")] hp (by rfl)]
    exact ⟨rfl, rfl⟩

theorem c10_pending_name_witness :
    (scanLines ("/p/f.org") [] 0 initScan
        (("#+name: foo") :: [(""), ("Some prose."), ("* heading")] ++
          [("#+begin_src ts"), ("const x = 1"), ("#+end_src")])).blocks.map
      (fun b => b.name) = [some ("foo")] :=
  ((c10_pending_name ("/p/f.org") []).2 [(""), ("Some prose."), ("* heading")] 0
    (by decide)).1

/-! ## Claim C4 -/

/-- First fixture block for C4: no `shebang` argument, but a content that
begins with `#!`. -/
def c4b1 : SourceBlock :=
  { name := none, language := "sh", content := "#!/usr/bin/env sh\necho ok",
    headerArgs := [], startLine := 1, contentStartLine := 2, endLine := 4,
    sourcePath := "/proj/f.org" }

/-- Second fixture block for C4: bears an explicit `shebang` argument. -/
def c4b2 : SourceBlock :=
  { name := some ("two"), language := "sh", content := "tail",
    headerArgs := [(("shebang"), Val.str ("#!b"))], startLine := 6,
    contentStartLine := 7, endLine := 8, sourcePath := "/proj/f.org" }

/-- C4 as stated is false: the target contains a block (`c4b2`) bearing a
`shebang` header argument (`#!b`), so by the claim that argument should
supply the shebang; but the scan checks each block's CONTENT before moving
to the next block, so the `#!` first line of the earlier block `c4b1`
(which bears no `shebang` argument) wins, and the emitted first line is
`#!/usr/bin/env sh`, not `#!b`. -/
theorem c4_shebang_counterexample :
    getArg c4b2.headerArgs ("shebang") = some (Val.str ("#!b")) ∧
    truthyVal (getArg c4b1.headerArgs ("shebang")) = false ∧
    (liftShebang [c4b1, c4b2]).1 = some ("#!/usr/bin/env sh") ∧
    firstLineOf (generateContent [c4b1, c4b2] [] ("/proj/run") ("/proj")).1 =
      ("#!/usr/bin/env sh") ∧
    ("#!/usr/bin/env sh" : String) ≠ ("#!b") := by
  refine ⟨by decide, by decide, by decide, ?_, by decide⟩
  exact generateContent_shebang_first [c4b1, c4b2] [] ("/proj/run") ("/proj")
    ("#!/usr/bin/env sh") (by decide) (by decide)

/-- C4 (amended): the emitted shebang is the one found by scanning the
target's blocks in order, where for each block the (truthy) `shebang`
header argument is consulted first and then that same block's content for
a leading `#!` line; the scan stops at the first hit (`liftShebang`).
Whenever this scan finds a shebang, it is the first line of the generated
target; when it was lifted from a block's content, that line is removed
from the block's content (see `liftShebang`), so it is not duplicated in
the body. -/
theorem c4_shebang_amended (blocks : List SourceBlock) (index : Index)
    (tp cwd sh : String) (hsh : (liftShebang blocks).1 = some sh)
    (hnl : sh.toList.all (fun c => c != '\n') = true) :
    firstLineOf (generateContent blocks index tp cwd).1 = sh :=
  generateContent_shebang_first blocks index tp cwd sh hsh hnl

theorem c4_shebang_amended_witness :
    firstLineOf (generateContent [c4b2] [] ("/x/a.sh") ("/x")).1 = ("#!b") :=
  c4_shebang_amended [c4b2] [] ("/x/a.sh") ("/x") ("#!b") (by decide) (by decide)

/-! ## Claim C6 -/

/-- Fixture block for C6: content beginning with a `#!` line, tangled
without a `shebang` argument. -/
def c6b : SourceBlock :=
  { name := some ("main"), language := "sh", content := "#!/x\nbody",
    headerArgs := [], startLine := 0, contentStartLine := 1, endLine := 3,
    sourcePath := "/x/f.org" }

/-- C6 as stated is false: target assembly modifies a Block. Generating
content for a target whose first block has no `shebang` argument but a
`#!` first content line rewrites that block's `content` in place (the
shebang lift, lines 479-487): after `generateContent` the block list no
longer equals the input — the lifting block's content lost its first
line. -/
theorem c6_immutable_counterexample :
    (generateContent [c6b] [] ("/x/t.txt") ("/x")).2 ≠ [c6b] ∧
    (generateContent [c6b] [] ("/x/t.txt") ("/x")).2 =
      [{ c6b with content := ("body") }] := by
  constructor <;> decide

/-- C6 (amended): Blocks are immutable through index building and
reference expansion, and target assembly preserves every Block field
except for the single shebang lift: each block either comes out of
`generateContent` unchanged, or (when its leading `#!` content line was
lifted as the target's shebang) identical except that its `content` lost
its first line and the following newline. -/
theorem c6_immutable_amended (blocks : List SourceBlock) (index : Index)
    (tp cwd : String) :
    ∀ p ∈ ((generateContent blocks index tp cwd).2.zip blocks),
      p.1 = p.2 ∨
      p.1 = { p.2 with
        content := jsDropStr p.2.content
          (((splitNl p.2.content).headD ("")).toList.length + 1) } := by
  intro p hp
  rw [generateContent_snd] at hp
  exact liftShebang_fst_eq blocks p hp

theorem c6_immutable_amended_witness :
    ({ c6b with content := ("body") } = c6b) ∨
    ({ c6b with content := ("body") } = { c6b with content := jsDropStr c6b.content 5 }) := by
  have hp : (({ c6b with content := ("body") }, c6b)) ∈
      ((generateContent [c6b] [] ("/x/t.txt") ("/x")).2.zip [c6b]) := by decide
  exact c6_immutable_amended [c6b] [] ("/x/t.txt") ("/x")
    (({ c6b with content := ("body") }, c6b)) hp

/-! ## Claim C5 -/

/-- Abstract filesystem of the C5 counterexample: every directory exists,
and writing the first target path throws. -/
def c5fs : WriteFs :=
  { dirExists := fun _ => true, mkdirFails := fun _ => false,
    writeFails := fun p => p == "/out/a" }

/-- C5 as stated is false: with two targets of which only the first fails
to write, the loop does not continue with the second — the uncaught
exception ends the run: no target at all is written, although the second
target's write would have succeeded. -/
theorem c5_continue_counterexample :
    c5fs.writeFails ("/out/b") = false ∧
    writeTargets c5fs [(("/out/a"), ("x")), (("/out/b"), ("y"))] =
      ([], some (("write failed: /out/a"))) := by
  constructor <;> decide

/-- C5 (amended): a directory-creation or write failure for one target
aborts the entire run, not just that target: the error propagates out of
the loop (and is surfaced by the top-level catch, which exits non-zero);
no target is written and the remaining targets are not attempted,
whatever they are. -/
theorem c5_abort_amended :
    (∀ (fs : WriteFs) (tp c : String) (rest : List (String × String)),
      (!fs.dirExists (dirname tp) && fs.mkdirFails (dirname tp)) = true →
      writeTargets fs ((tp, c) :: rest) =
        ([], some (("mkdir failed: ") ++ dirname tp))) ∧
    (∀ (fs : WriteFs) (tp c : String) (rest : List (String × String)),
      (!fs.dirExists (dirname tp) && fs.mkdirFails (dirname tp)) = false →
      fs.writeFails tp = true →
      writeTargets fs ((tp, c) :: rest) =
        ([], some (("write failed: ") ++ tp))) := by
  constructor
  · intro fs tp c rest hmk
    unfold writeTargets
    rw [if_pos hmk]
  · intro fs tp c rest hmk hw
    unfold writeTargets
    rw [if_neg (by simp [hmk]), if_pos hw]

theorem c5_abort_amended_witness :
    writeTargets c5fs [(("/out/a"), ("x")), (("/out/b"), ("y"))] =
      ([], some (("write failed: ") ++ ("/out/a"))) :=
  c5_abort_amended.2 c5fs ("/out/a") ("x") [(("/out/b"), ("y"))] (by decide) (by decide)
